import Mathlib

/-!
# Verification of the moria value-layout and serialization core

This file gives a shallow embedding, in Lean 4, of the core of the `moria`
repository (a Python library that builds graphs of typed C values and packs
them into a contiguous byte image), and proves or refutes the frozen claims
about it.

The embedding follows the Python sources:

* `moria/values.py` — `_pack_integral_type`, `_unpack_integral_type`,
  `IntValue.__init__` / `pack` / `unpack_from_buffer` / `cast`,
  `ArrayValue.cast`, `PointerValue.cast`, `StructValue.cast`,
  `StructValue.pack`;
* `moria/basetypes.py` — `IntType.min` / `IntType.max`, `StructType.size`;
* `moria/pack.py` — `FreeChunk.split`, `HeapPacker.alloc`;
* `moria/namespace.py` — `Namespace.pack_values`;
* `moria/util.py` — `SortedList.insert`.

Python unbounded integers are modelled as `Int` (sizes and counts as `Nat`
where the source guarantees non-negativity), `bytes` as `List Nat`
(each entry a byte value), exceptions as `Except String`, and mutable object
graphs as an index-addressed store (`List VNode`).  Python `set` iteration
order is not deterministic; the model fixes insertion order, which is one of
the admissible behaviours.
-/

namespace Moria

/-- Machine byte order, mirroring `moria/arch.py` `Endianness`. -/
inductive Endianness where
  | little
  | big
deriving DecidableEq, Repr

/-! ## Integral (de)serialization — `moria/values.py`

`_pack_integral_type(num, size, signed, endianness)` packs a Python int into
`size` little- or big-endian bytes.  Its range check is the one literally in
the source: for the signed case the Python expression `1 << (n_bits) - 1`
parses as `1 << (n_bits - 1)`, and the unsigned bound is
`(1 << (n_bits + 1)) - 1`; both are therefore looser than the type's true
range.  Python `num &= mask` with `mask = 2^n - 1` equals `num.emod 2^n`.
-/

/-- Little-endian byte list of the masked (non-negative) number: the source's
`[(num >> (i * 8)) & 0xFF for i in range(size)]`. -/
def natToBytesLE : Nat → Nat → List Nat
  | 0, _ => []
  | s + 1, n => (n % 256) :: natToBytesLE s (n / 256)

/-- Reassemble a little-endian byte list: the source's
`num |= buffer[i] << (8 * i)` loop in `_unpack_integral_type`. -/
def bytesToNatLE : List Nat → Nat
  | [] => 0
  | b :: bs => b + 256 * bytesToNatLE bs

/-- Model of `_pack_integral_type` from `moria/values.py` (including its
literal, off-by-one range check).  Python raises `ValueError` for a negative
shift count, which happens in the signed branch when `size = 0`. -/
def packIntegral (num : Int) (size : Nat) (signed : Bool) (e : Endianness) :
    Except String (List Nat) :=
  let nBits := size * 8
  if signed ∧ nBits = 0 then .error "ValueError: negative shift count" else
  -- signed: Python `1 << (n_bits) - 1` parses as `1 << (n_bits - 1)` = 2^(nBits-1);
  -- unsigned: `(1 << (n_bits + 1)) - 1` = 2^(nBits+1) - 1
  let maxValue : Int := if signed then 2 ^ (nBits - 1) else 2 ^ (nBits + 1) - 1
  let minValue : Int := if signed then -maxValue - 1 else 0
  if ¬ (minValue ≤ num ∧ num ≤ maxValue) then
    .error "ValueError: cannot represent number"
  else
    -- `num &= mask` with `mask = 2^nBits - 1`
    let masked : Nat := (num % (2 ^ nBits)).toNat
    let littleEndianBytes := natToBytesLE size masked
    .ok (if e = .big then littleEndianBytes.reverse else littleEndianBytes)

/-- Model of `_unpack_integral_type` from `moria/values.py`.  The source
asserts `len(buffer) == size` and always computes
`sign_bit = 0x80 << (8 * (size - 1))` (a Python error when `size = 0`).
Python's `-((~num + 1) & mask)` for the non-negative `num` equals
`-((-num).emod 2^nBits)`. -/
def unpackIntegral (buffer : List Nat) (size : Nat) (signed : Bool)
    (e : Endianness) : Except String Int :=
  let buf := if e = .big then buffer.reverse else buffer
  if buf.length ≠ size then .error "AssertionError: buffer length" else
  if size = 0 then .error "ValueError: negative shift count" else
  let nBits := size * 8
  let num : Nat := bytesToNatLE buf
  -- `0x80 << (8 * (size - 1))` = 2^(8*size - 1)
  let signBit : Nat := 0x80 <<< (8 * (size - 1))
  if signed ∧ num &&& signBit ≠ 0 then
    .ok (-((-(num : Int)) % (2 ^ nBits)))
  else
    .ok num

/-! ## Integer types — `moria/basetypes.py` `IntType` -/

/-- An integer type: `IntType { name, size?, signed }`.  The name plays no
role in the claims below and is omitted. -/
structure IntType where
  size : Option Nat
  signed : Bool
deriving DecidableEq, Repr

/-- `IntType.max` for a type of known size (`moria/basetypes.py`):
`(1 << (n_bits - 1)) - 1` signed, `(1 << n_bits) - 1` unsigned. -/
def IntType.maxFor (size : Nat) (signed : Bool) : Int :=
  let nBits := size * 8
  if signed then 2 ^ (nBits - 1) - 1 else 2 ^ nBits - 1

/-- `IntType.min` for a type of known size: `-max - 1` signed, `0`
unsigned. -/
def IntType.minFor (size : Nat) (signed : Bool) : Int :=
  if signed then -(IntType.maxFor size signed) - 1 else 0

/-- An integer value's payload slot (`IntValue.value`). -/
structure IntValue where
  type : IntType
  value : Option Int
deriving DecidableEq, Repr

/-- Model of `IntValue.__init__`: the range check is guarded by Python
truthiness (`if value and not self.type.min <= value <= self.type.max`), so
`None` and `0` skip it; accessing `type.min` on an unknown-size type raises
`ValueError` before the range comparison. -/
def IntValue.init (t : IntType) (value : Option Int) :
    Except String IntValue :=
  match value with
  | none => .ok ⟨t, none⟩
  | some v =>
    if v = 0 then .ok ⟨t, some 0⟩
    else
      match t.size with
      | none => .error "ValueError: int of unknown size has no max or min"
      | some s =>
        if ¬ (IntType.minFor s t.signed ≤ v ∧ v ≤ IntType.maxFor s t.signed) then
          .error "OutOfRange"
        else .ok ⟨t, some v⟩

/-- Model of `IntValue.pack`: an unset payload packs as `0`
(`val = self.value; if val is None: val = 0`); an unknown size fails the
assertion. -/
def IntValue.pack (v : IntValue) (e : Endianness) : Except String (List Nat) :=
  match v.type.size with
  | none => .error "AssertionError: cannot serialize type of unresolved size"
  | some s =>
    let val := v.value.getD 0
    packIntegral val s v.type.signed e

/-- Model of `IntValue.unpack_from_buffer`: checks the buffer length, then
delegates to `_unpack_integral_type` and re-runs the constructor. -/
def IntValue.unpackFromBuffer (t : IntType) (buffer : List Nat)
    (e : Endianness) : Except String IntValue :=
  match t.size with
  | none => .error "AssertionError: size is None"
  | some s =>
    if buffer.length ≠ s then .error "ValueError: invalid length to unpack"
    else
      match unpackIntegral buffer s t.signed e with
      | .error err => .error err
      | .ok val => IntValue.init t (some val)

/-! ## Heap packer — `moria/pack.py`

`FreeChunk { address, size }` with `end = address + size`; `split` carves an
allocated window out of a chunk; `HeapPacker.alloc` scans the free list
either for the best-fit chunk (no forced address) or for the chunk containing
a forced window.  Addresses and sizes are Python ints, modelled as `Int`. -/

structure FreeChunk where
  address : Int
  size : Int
deriving DecidableEq, Repr

/-- `FreeChunk.end` (named `endAddr` here; `end` is reserved in Lean). -/
def FreeChunk.endAddr (c : FreeChunk) : Int := c.address + c.size

/-- Model of `FreeChunk.split`: returns the zero, one or two chunks covering
the unallocated remainder, or `InvalidSplit` when the window is not inside
the chunk (the source raises `ValueError`). -/
def FreeChunk.split (c : FreeChunk) (address size : Int) :
    Except String (List FreeChunk) :=
  let e := address + size
  if address < c.address ∨ e > c.endAddr ∨ size < 0 then
    .error "InvalidSplit"
  else
    .ok ((if address > c.address then [⟨c.address, address - c.address⟩] else []) ++
         (if e < c.endAddr then [⟨e, c.endAddr - e⟩] else []))

/-- Accumulator of the best-fit scan in `HeapPacker.alloc`:
`min_overhead`, `best_chunk_idx`, `address`. -/
structure ScanAcc where
  minOverhead : Option Int
  bestIdx : Option Nat
  address : Option Int
deriving Repr

/-- One step of the best-fit loop body (`elif chunk.size >= size:` branch). -/
def scanStep (size : Int) (acc : ScanAcc) (p : Nat × FreeChunk) : ScanAcc :=
  if p.2.size ≥ size then
    let overhead := p.2.size - size
    match acc.minOverhead with
    | none => ⟨some overhead, some p.1, some p.2.address⟩
    | some m =>
      if overhead < m then ⟨some overhead, some p.1, some p.2.address⟩ else acc
  else acc

/-- The forced-address branch of the loop: find the first chunk whose span
contains `[force, force+size)` (the loop `break`s at the first hit). -/
def findForceIdx (force size : Int) : List FreeChunk → Nat → Option (Nat × Int)
  | [], _ => none
  | c :: rest, idx =>
    if force ≥ c.address ∧ force + size ≤ c.endAddr then some (idx, force)
    else findForceIdx force size rest (idx + 1)

/-- Model of `HeapPacker.alloc`.  The state is the free-chunk list; on
success the result is the allocated address paired with the new free list
(`free_chunks[:idx] + split + free_chunks[idx+1:]`).  `OutOfSpace` models
the source's `ValueError('Unable to allocate')`. -/
def HeapPacker.alloc (chunks : List FreeChunk) (size : Int)
    (force : Option Int) : Except String (Int × List FreeChunk) :=
  let found : Option (Nat × Int) :=
    match force with
    | some f => findForceIdx f size chunks 0
    | none =>
      let acc : ScanAcc := chunks.enum.foldl (scanStep size) ⟨none, none, none⟩
      match acc.bestIdx, acc.address with
      | some idx, some a => some (idx, a)
      | _, _ => none
  match found with
  | none => .error "OutOfSpace"
  | some (idx, a) =>
    match chunks.get? idx with
    | none => .error "IndexError"
    | some c =>
      match c.split a size with
      | .error e => .error e
      | .ok newChunks =>
        .ok (a, chunks.take idx ++ newChunks ++ chunks.drop (idx + 1))

/-! ### Best-fit characterization of `alloc` -/

/-- Reference description of the best-fit scan: the first chunk (in list
order, indices starting at `n`) attaining the minimal overhead among chunks
with `size ≤ chunk.size`.  Result: `(index, address, overhead)`. -/
def bestFitRef (size : Int) : List FreeChunk → Nat → Option (Nat × Int × Int)
  | [], _ => none
  | c :: rest, n =>
    let rbest := bestFitRef size rest (n + 1)
    if size ≤ c.size then
      match rbest with
      | some (i, a, o) =>
        if o < c.size - size then some (i, a, o)
        else some (n, c.address, c.size - size)
      | none => some (n, c.address, c.size - size)
    else rbest

/-- Convert a reference best-fit result into the scan accumulator. -/
def refToAcc : Option (Nat × Int × Int) → ScanAcc
  | none => ⟨none, none, none⟩
  | some (i, a, o) => ⟨some o, some i, some a⟩

/-- Merge a reference result for a list suffix into an accumulator holding
the best candidate of the prefix (ties keep the prefix candidate). -/
def mergeAcc (o : Int) (i : Nat) (a : Int) : Option (Nat × Int × Int) → ScanAcc
  | none => ⟨some o, some i, some a⟩
  | some (i', a', o') =>
    if o' < o then ⟨some o', some i', some a'⟩ else ⟨some o, some i, some a⟩

/-! ## Value graph and layout engine — `moria/namespace.py` `pack_values`

Python values form a mutable object graph.  The model stores one node per
value in an index-addressed store (`List VNode`); `addressBase` and
`children` hold indices.  `children` are the referenced values other than
`address_base` (array elements, pointer referent, struct fields), so that
`iter_referenced_values` is `addressBase.toList ++ children` (the source
yields `address_base` first).  `payload` stands for the node's own data
(e.g. an `IntValue`'s payload) and `packBytes` for the bytes the value's
`pack()` emits; both are opaque to the layout engine, which only reads
sizes and writes offsets. -/

structure VNode where
  addressBase : Option Nat
  offset : Option Int
  size : Option Int
  children : List Nat
  payload : Option Int
  packBytes : List Nat
deriving DecidableEq, Repr

/-- `iter_referenced_values`: the `address_base` (if any) followed by the
other referenced values. -/
def VNode.refs (nd : VNode) : List Nat :=
  (match nd.addressBase with
   | some b => [b]
   | none => []) ++ nd.children

/-- Helper: the number of valid store indices not yet visited. -/
def unvisitedCount (storeLen : Nat) (all : List Nat) : Nat :=
  ((List.range storeLen).filter (fun i => decide (i ∉ all))).length

/-- The reachability worklist loop of `pack_values` (`to_traverse` /
`all_values`).  The source pops a value, adds it to the visited set and
pushes the referenced values not yet visited.  The model pops from the head;
the visited collection is a deduplicated list in insertion order (Python
uses an unordered `set`, whose iteration order the model fixes).  A
reference to an index outside the store cannot occur in Python (objects are
always live) and is skipped. -/
def reachLoop (store : List VNode) : List Nat → List Nat → List Nat
  | all, [] => all
  | all, val :: rest =>
    match hnd : store.get? val with
    | none => reachLoop store all rest
    | some nd =>
      if hval : val ∈ all then
        reachLoop store all
          ((nd.refs.filter (fun c => decide (c ∉ all))) ++ rest)
      else
        reachLoop store (all ++ [val])
          ((nd.refs.filter (fun c => decide (c ∉ all ++ [val]))) ++ rest)
termination_by all wl =>
  (unvisitedCount store.length all,
   (wl.filter (fun v => decide (v ∈ all))).length,
   wl.length)
decreasing_by
  · -- invalid index popped: visited set unchanged, worklist shrinks
    have lex3 : ∀ a b c a' b' c' : Nat,
        (a < a' ∨ (a = a' ∧ (b < b' ∨ (b = b' ∧ c < c')))) →
        Prod.Lex (α := Nat) (· < ·) (Prod.Lex (· < ·) (· < ·)) (a, b, c) (a', b', c') := by
      intro a b c a' b' c' h
      rcases h with h | ⟨rfl, h | ⟨rfl, h⟩⟩
      · exact Prod.Lex.left _ _ h
      · exact Prod.Lex.right _ (Prod.Lex.left _ _ h)
      · exact Prod.Lex.right _ (Prod.Lex.right _ h)
    apply lex3
    by_cases hv : val ∈ all
    · refine Or.inr ⟨rfl, Or.inl ?_⟩
      simp [List.filter_cons, hv]
    · refine Or.inr ⟨rfl, Or.inr ⟨?_, ?_⟩⟩
      · simp [List.filter_cons, hv]
      · simp
  · -- already-visited value: its (counted) entry is removed; only
    -- unvisited children are pushed
    have lex3 : ∀ a b c a' b' c' : Nat,
        (a < a' ∨ (a = a' ∧ (b < b' ∨ (b = b' ∧ c < c')))) →
        Prod.Lex (α := Nat) (· < ·) (Prod.Lex (· < ·) (· < ·)) (a, b, c) (a', b', c') := by
      intro a b c a' b' c' h
      rcases h with h | ⟨rfl, h | ⟨rfl, h⟩⟩
      · exact Prod.Lex.left _ _ h
      · exact Prod.Lex.right _ (Prod.Lex.left _ _ h)
      · exact Prod.Lex.right _ (Prod.Lex.right _ h)
    apply lex3
    refine Or.inr ⟨rfl, Or.inl ?_⟩
    rw [List.filter_append, List.length_append]
    have hzero : ((nd.refs.filter (fun c => decide (c ∉ all))).filter
        (fun v => decide (v ∈ all))).length = 0 := by
      rw [List.length_eq_zero, List.filter_eq_nil]
      intro v hv
      have := List.of_mem_filter hv
      simpa using this
    rw [hzero]
    simp [List.filter_cons, hval]
  · -- newly-visited value: the unvisited count strictly decreases
    have lex3 : ∀ a b c a' b' c' : Nat,
        (a < a' ∨ (a = a' ∧ (b < b' ∨ (b = b' ∧ c < c')))) →
        Prod.Lex (α := Nat) (· < ·) (Prod.Lex (· < ·) (· < ·)) (a, b, c) (a', b', c') := by
      intro a b c a' b' c' h
      rcases h with h | ⟨rfl, h | ⟨rfl, h⟩⟩
      · exact Prod.Lex.left _ _ h
      · exact Prod.Lex.right _ (Prod.Lex.left _ _ h)
      · exact Prod.Lex.right _ (Prod.Lex.right _ h)
    apply lex3
    refine Or.inl ?_
    have key : ∀ (l : List Nat) (p q : Nat → Bool),
        (∀ x ∈ l, q x = true → p x = true) →
        ∀ a ∈ l, p a = true → q a = false →
        (l.filter q).length < (l.filter p).length := by
      intro l p q himp a ha hpa hqa
      induction l with
      | nil => cases ha
      | cons x xs ihl =>
        have hle : ∀ (ys : List Nat), (∀ x ∈ ys, q x = true → p x = true) →
            (ys.filter q).length ≤ (ys.filter p).length := by
          intro ys hys
          induction ys with
          | nil => simp
          | cons y ys ihy =>
            have hy := hys y (List.mem_cons_self _ _)
            have hrec := ihy (fun z hz => hys z (List.mem_cons_of_mem _ hz))
            rw [List.filter_cons, List.filter_cons]
            cases hqy : q y with
            | true =>
              simp [hqy, hy hqy]
              omega
            | false =>
              cases hpy : p y with
              | true =>
                simp [hqy, hpy]
                omega
              | false =>
                simp [hqy, hpy]
                omega
        rcases List.mem_cons.mp ha with rfl | hxs
        · have hxs' := hle xs (fun z hz => himp z (List.mem_cons_of_mem _ hz))
          rw [List.filter_cons, List.filter_cons]
          simp [hpa, hqa]
          omega
        · have hx := himp x (List.mem_cons_self _ _)
          have hrec := ihl (fun z hz => himp z (List.mem_cons_of_mem _ hz)) hxs
          rw [List.filter_cons, List.filter_cons]
          cases hqx : q x with
          | true =>
            simp [hqx, hx hqx]
            omega
          | false =>
            cases hpx : p x with
            | true =>
              simp [hqx, hpx]
              omega
            | false =>
              simp [hqx, hpx]
              omega
    unfold unvisitedCount
    apply key
    · intro x _ hq
      simp only [decide_eq_true_eq] at hq ⊢
      intro hmem
      exact hq (List.mem_append_left _ hmem)
    · have hvallt : val < store.length := (List.get?_eq_some.mp hnd).1
      exact List.mem_range.mpr hvallt
    · simpa using hval
    · simp

/-- The reachability closure from the roots (`all_values` after the loop). -/
def reachClosure (store : List VNode) (roots : List Nat) : List Nat :=
  reachLoop store [] roots

/-- One step along the `address_base` chain. -/
def abStep (store : List VNode) (v : Nat) : Option Nat :=
  (store.get? v).bind VNode.addressBase

/-- `k` steps along the `address_base` chain. -/
def abIter (store : List VNode) : Nat → Nat → Option Nat
  | 0, v => some v
  | k + 1, v =>
    match abStep store v with
    | none => none
    | some w => abIter store k w

/-- The anchor-resolution walk of `pack_values`: follow `address_base` until
a value without one, recording the path; fail with `CyclicAnchor` when a
value repeats (the source raises `ValueError('Cyclic address dependency')`).
Fuel makes the recursion structural; `store.length + 2` is enough (proved in
`walkAnchorFuel_no_fuel`). -/
def walkAnchorFuel (store : List VNode) : Nat → Nat → List Nat →
    Except String Nat
  | 0, _, _ => .error "fuel"
  | fuel + 1, p, path =>
    match store.get? p with
    | none => .error "dangling"
    | some nd =>
      match nd.addressBase with
      | none => .ok p
      | some q =>
        if q ∈ path then .error "CyclicAnchor"
        else walkAnchorFuel store fuel q (path ++ [q])

/-- The anchor of a value: the terminal of its `address_base` chain. -/
def walkAnchor (store : List VNode) (v : Nat) : Except String Nat :=
  walkAnchorFuel store (store.length + 2) v [v]

/-- The classification loop of `pack_values`: every reached value's anchor
is put into `free_values` (offset unset) or `fixed_values` (offset set).
Python uses sets; the model deduplicates insertion-ordered lists. -/
def classifyAnchors (store : List VNode) : List Nat → List Nat → List Nat →
    Except String (List Nat × List Nat)
  | [], free, fixed => .ok (free, fixed)
  | v :: rest, free, fixed =>
    match walkAnchor store v with
    | .error e => .error e
    | .ok t =>
      match store.get? t with
      | none => .error "dangling"
      | some nd =>
        match nd.offset with
        | none =>
          classifyAnchors store rest (if t ∈ free then free else free ++ [t]) fixed
        | some _ =>
          classifyAnchors store rest free (if t ∈ fixed then fixed else fixed ++ [t])

/-- The `Value.address` property: `offset` if there is no `address_base`,
else the base's address plus `offset` (or `None` when anything is
unresolved).  Fueled to make the recursion through the store structural. -/
def addrOfFuel (store : List VNode) : Nat → Nat → Option Int
  | 0, _ => none
  | fuel + 1, v =>
    match store.get? v with
    | none => none
    | some nd =>
      match nd.offset with
      | none => none
      | some off =>
        match nd.addressBase with
        | none => some off
        | some b =>
          match addrOfFuel store fuel b with
          | some ba => some (ba + off)
          | none => none

/-- `Value.address` with enough fuel for any acyclic chain. -/
def address (store : List VNode) (v : Nat) : Option Int :=
  addrOfFuel store (store.length + 1) v

/-- The fixed-anchor allocation loop: `packer.alloc(val.type.size,
val.address)` for every fixed anchor (asserting known size and address). -/
def allocFixed (store : List VNode) : List FreeChunk → List Nat →
    Except String (List FreeChunk)
  | chunks, [] => .ok chunks
  | chunks, v :: rest =>
    match store.get? v with
    | none => .error "dangling"
    | some nd =>
      match nd.size with
      | none => .error "AssertionError: size"
      | some sz =>
        match address store v with
        | none => .error "AssertionError: address"
        | some a =>
          match HeapPacker.alloc chunks sz (some a) with
          | .error e => .error e
          | .ok (_, chunks') => allocFixed store chunks' rest

/-- The free-anchor allocation loop: `val.offset = packer.alloc(
val.type.size)`, writing the resolved offset back into the store. -/
def allocFree (store : List VNode) : List FreeChunk → List Nat →
    Except String (List VNode × List FreeChunk)
  | chunks, [] => .ok (store, chunks)
  | chunks, v :: rest =>
    match store.get? v with
    | none => .error "dangling"
    | some nd =>
      match nd.size with
      | none => .error "AssertionError: size"
      | some sz =>
        match HeapPacker.alloc chunks sz none with
        | .error e => .error e
        | .ok (a, chunks') =>
          allocFree (store.set v { nd with offset := some a }) chunks' rest

/-- The emission loop: values sorted by address, each packed and followed by
`next_start - part_end` zero bytes (`pad * b'\x00'` is empty for a negative
pad; only the last value gets no padding). -/
def emitLoop (store : List VNode) : List Nat → Except String (List Nat)
  | [] => .ok []
  | [v] =>
    match store.get? v with
    | none => .error "dangling"
    | some nd =>
      match address store v, nd.size with
      | some _, some _ => .ok nd.packBytes
      | _, _ => .error "AssertionError"
  | v :: w :: rest =>
    match store.get? v with
    | none => .error "dangling"
    | some nd =>
      match address store v, nd.size with
      | some a, some sz =>
        match address store w with
        | none => .error "AssertionError: next address"
        | some nextStart =>
          let pad := nextStart - (a + sz)
          match emitLoop store (w :: rest) with
          | .error e => .error e
          | .ok tail => .ok (nd.packBytes ++ List.replicate pad.toNat 0 ++ tail)
      | _, _ => .error "AssertionError"

/-- Model of `Namespace.pack_values(base_address, max_size, values)`:
reachability, anchor classification, fixed then free allocation over a
fresh `HeapPacker`, and emission in address order.  Returns the updated
store (free anchors now carry offsets) and the byte image. -/
def pack_values (store : List VNode) (baseAddress maxSize : Int)
    (roots : List Nat) : Except String (List VNode × List Nat) :=
  let allValues := reachClosure store roots
  match classifyAnchors store allValues [] [] with
  | .error e => .error e
  | .ok (freeVals, fixedVals) =>
    match allocFixed store [⟨baseAddress, maxSize⟩] fixedVals with
    | .error e => .error e
    | .ok chunks1 =>
      match allocFree store chunks1 freeVals with
      | .error e => .error e
      | .ok (store', _) =>
        let toPack := (freeVals ++ fixedVals).mergeSort
          (fun u v => ((address store' u).getD 0) ≤ ((address store' v).getD 0))
        match emitLoop store' toPack with
        | .error e => .error e
        | .ok bytes => .ok (store', bytes)

/-! ### Allocator coverage invariants (towards the layout claims) -/

/-- A point is covered by some free chunk. -/
def covered (chunks : List FreeChunk) (x : Int) : Prop :=
  ∃ c ∈ chunks, c.address ≤ x ∧ x < c.address + c.size

/-- Disjointness of two chunks. -/
def ChunkDisj (c d : FreeChunk) : Prop :=
  c.address + c.size ≤ d.address ∨ d.address + d.size ≤ c.address

/-! ### Anchor-walk lemmas -/

/-- Well-formed store: every reference stays inside the store. -/
def WFStore (store : List VNode) : Prop :=
  ∀ nd ∈ store, (∀ b, nd.addressBase = some b → b < store.length) ∧
    (∀ c ∈ nd.children, c < store.length)

/-- An integer value anchored 4 bytes below a free 4-byte integer. -/
def exAnchoredInt : VNode := ⟨some 1, some (-4), some 4, [], none, [1, 1, 1, 1]⟩

/-- A free (unplaced) 4-byte integer. -/
def exFreeInt : VNode := ⟨none, none, some 4, [], none, [2, 2, 2, 2]⟩

/-- Example store: value 0 is anchored on the free value 1. -/
def exStore : List VNode := [exAnchoredInt, exFreeInt]

/-- The store after packing into `[100, 108)`: value 1 was placed at 100. -/
def exStoreAfter : List VNode := [exAnchoredInt, { exFreeInt with offset := some 100 }]

/-! ### Layout invariants of the two allocation passes -/

/-- Two placed windows are disjoint as half-open intervals. -/
def spanDisjoint (a1 s1 a2 s2 : Int) : Prop :=
  ∀ x : Int, a1 ≤ x → x < a1 + s1 → ¬(a2 ≤ x ∧ x < a2 + s2)

/-- The layout claim exactly as the specification states it: bounds and
disjointness for EVERY reached value with a known size, not just for the
allocated anchors. -/
def C1Claim : Prop :=
  ∀ store baseAddress maxSize roots store' bytes,
    pack_values store baseAddress maxSize roots = .ok (store', bytes) →
    (∀ v ∈ reachClosure store roots, ∀ sz,
        (store.get? v).bind VNode.size = some sz →
        ∃ a, address store' v = some a ∧
          baseAddress ≤ a ∧ a + sz ≤ baseAddress + maxSize)
    ∧ List.Pairwise (fun u w => ∀ au aw su sw,
        address store' u = some au →
        (store.get? u).bind VNode.size = some su →
        address store' w = some aw →
        (store.get? w).bind VNode.size = some sw →
        spanDisjoint au su aw sw) (reachClosure store roots)

/-- A struct field as `StructValue.pack` sees it: the declared offset and the
declared size of its type (`fsize = none` when unresolved) — `StructField`
in `basetypes.py` (`size` delegates to `field_type.size`). -/
structure SField where
  offset : Int
  fsize : Option Int
deriving DecidableEq

/-- The binary-search loop of `SortedList.insert` (`util.py`), specialised to
struct fields with the key `compare_offsets x y = x.offset - y.offset`.
`getD` with a junk default stands for `self.elements[midpoint]`, which the
source only evaluates in range (`min_index < max_index ≤ len`). -/
def insertIdxLoop (fields : List SField) (elem : SField)
    (minI maxI : Nat) : Nat :=
  if minI < maxI then
    let mid := (maxI - minI) / 2 + minI
    let c := elem.offset - (fields.getD mid ⟨0, none⟩).offset
    if c < 0 then insertIdxLoop fields elem minI mid
    else if 0 < c then insertIdxLoop fields elem (mid + 1) maxI
    else mid
  else minI
termination_by maxI - minI
decreasing_by
· omega
· omega

/-- `SortedList.insert` (`util.py`): binary search for the insertion index,
then `self.elements.insert(min_index, elem)`, i.e. take/cons/drop. -/
def SortedList.insert (fields : List SField) (elem : SField) : List SField :=
  let idx := insertIdxLoop fields elem 0 fields.length
  fields.take idx ++ elem :: fields.drop idx

/-- The loop body of `StructValue.pack` (`values.py` 666-687): for each type
field in declared order, `padding = offset - last_field_end` zero bytes
(negative padding asserted away), the field value's packed bytes (whose
length must equal the declared field size, which must be resolved), with
`last_field_end` advancing to `offset + size`.  A field value is represented
by the bytes it packs to. -/
def structPackLoop : List (SField × List Nat) → Int → Except String (List Nat)
  | [], _ => .ok []
  | (f, fieldBytes) :: rest, lastEnd =>
    let padding := f.offset - lastEnd
    if padding < 0 then .error "AssertionError: negative padding"
    else
      match f.fsize with
      | none => .error "Cannot serialize field of unresolved size"
      | some s =>
        if (fieldBytes.length : Int) = s then
          match structPackLoop rest (f.offset + s) with
          | .ok out => .ok (List.replicate padding.toNat 0 ++ fieldBytes ++ out)
          | .error e => .error e
        else .error "AssertionError: field length"

/-- `StructValue.pack`: run the field loop with `last_field_end = 0`. -/
def StructValue.pack (fields : List (SField × List Nat)) :
    Except String (List Nat) :=
  structPackLoop fields 0

/-- `StructType.size` (`basetypes.py` 260-267): `None` for no fields or an
unresolved last field, else `last_field.offset + last_field.size`. -/
def StructType.size (fields : List SField) : Option Int :=
  match fields.getLast? with
  | none => none
  | some f =>
    match f.fsize with
    | none => none
    | some s => some (f.offset + s)

/-- The value types relevant to `cast` (`values.py`): integer, array,
pointer and struct types (a struct type only by identity, since
`StructValue.cast` just compares `value.type == cls.type`). -/
inductive VType where
  | intT (t : IntType)
  | arrT (member : VType) (count : Nat)
  | ptrT (referenced : VType)
  | structT (name : Nat)
deriving DecidableEq, Repr

/-- A moria `Value` as `cast` inspects it: its type and the slots the casts
construct (anchors are irrelevant to `cast` results and not modelled). -/
inductive MValue where
  | intV (v : IntValue)
  | arrV (member : VType) (count : Nat) (vals : List MValue)
  | ptrV (referenced : VType) (refValue : Option MValue) (raw : Option Int)
  | structV (name : Nat)

/-- A Python `Value.CompatibleType` input to `cast`: an int, a str (list of
code points), a bytes object, a list/tuple, a float (carried as the integer
`int(x)` truncates it to), or an existing moria `Value`. -/
inductive PyVal where
  | pyInt (n : Int)
  | pyStr (s : List Nat)
  | pyBytes (b : List Nat)
  | pyList (xs : List PyVal)
  | pyFloat (truncated : Int)
  | pyVal (v : MValue)

/-- UTF-8 encoding of one code point, for `value.encode("utf-8")` in
`PointerValue.cast`. -/
def utf8Encode (c : Nat) : List Nat :=
  if c < 0x80 then [c]
  else if c < 0x800 then [0xC0 + c / 0x40, 0x80 + c % 0x40]
  else if c < 0x10000 then
    [0xE0 + c / 0x1000, 0x80 + c / 0x40 % 0x40, 0x80 + c % 0x40]
  else
    [0xF0 + c / 0x40000, 0x80 + c / 0x1000 % 0x40, 0x80 + c / 0x40 % 0x40,
      0x80 + c % 0x40]

/-- `member_class()`: the default-constructed value used for array padding
in `ArrayValue.cast` — an `IntValue` with no payload, a default array of
defaults, a null-slot pointer, a default struct. -/
def defaultValue : VType → MValue
  | .intT t => .intV ⟨t, none⟩
  | .arrT m c => .arrV m c (List.replicate c (defaultValue m))
  | .ptrT r => .ptrV r none none
  | .structT n => .structV n

/-- `IntValue.cast` (`values.py` 194-228): accept an int, a float via
`int(value)`, a length-1 str via `ord`, or a length-1 bytes; mask into the
type's width (`num & mask` is `num mod 2^(8*size)`), wrap values above
`type.max` to `-((~num + 1) & mask) = -((-num) mod 2^(8*size))`, and build
the result through `IntValue.__init__`.  Any other input, including an
existing `Value`, raises `TypeError`. -/
def intCast (t : IntType) (value : PyVal) : Except String MValue :=
  match t.size with
  | none => .error "ValueError: Cannot cast to integer type without a size"
  | some size =>
    let intVal : Option Int :=
      match value with
      | .pyInt n => some n
      | .pyFloat q => some q
      | .pyStr s => if s.length = 1 then some ((s.getD 0 0 : Nat) : Int)
          else none
      | .pyBytes b => if b.length = 1 then some ((b.getD 0 0 : Nat) : Int)
          else none
      | _ => none
    match intVal with
    | none => .error "TypeError: cannot be assigned"
    | some n =>
      let num := n % (2 : Int) ^ (8 * size)
      let num' := if num > IntType.maxFor size t.signed
        then -((-num) % (2 : Int) ^ (8 * size)) else num
      match IntValue.init t (some num') with
      | .ok iv => .ok (.intV iv)
      | .error e => .error e

/-- `StructValue.cast` (`values.py` 612-623): a `StructValue` of the same
type is returned unchanged; everything else raises `TypeError`. -/
def structCast (name : Nat) (value : PyVal) : Except String MValue :=
  match value with
  | .pyVal (.structV n) =>
    if n = name then .ok (.structV n) else .error "TypeError: wrong struct"
  | _ => .error "TypeError: cannot be cast"

/-- `list(value)` under `isinstance(value, Iterable)`: a str iterates to
length-1 strs, bytes to ints, a list to its items; ints, floats and moria
`Value`s are not iterable. -/
def iterElems : PyVal → Option (List PyVal)
  | .pyStr s => some (s.map (fun c => PyVal.pyStr [c]))
  | .pyBytes b => some (b.map PyVal.pyInt)
  | .pyList xs => some xs
  | _ => none

/-- `isinstance(value, Sequence)` in `PointerValue.cast`, applied after a
str has been re-encoded as bytes: bytes iterate to ints, lists/tuples to
their items; ints, floats and moria `Value`s are not sequences. -/
def seqElems : PyVal → Option (List PyVal)
  | .pyBytes b => some (b.map PyVal.pyInt)
  | .pyList xs => some xs
  | _ => none

mutual

/-- `cls.type.value_class.cast(value)` dispatched on the target type:
`IntValue.cast`, `ArrayValue.cast` (`values.py` 341-368), `PointerValue.cast`
(`values.py` 462-494) and `StructValue.cast`.  For an array: the input must
be iterable, at most `count` items, each item cast to the member type, the
rest padded with default-constructed members.  For a pointer: a str is
first UTF-8 encoded; a sequence is element-wise cast to the referenced type
and wrapped as a fresh array of exactly its length, which the pointer
references; an int becomes a raw pointer value; anything else raises
`TypeError`. -/
def castTo : VType → PyVal → Except String MValue
  | .intT t, v => intCast t v
  | .structT n, v => structCast n v
  | .arrT m c, v =>
    match iterElems v with
    | none => .error "TypeError: cannot be assigned"
    | some xs =>
      if xs.length > c then .error "TypeError: too many elements"
      else
        match castList m xs with
        | .error e => .error e
        | .ok vs =>
          .ok (.arrV m c
            (vs ++ List.replicate (c - xs.length) (defaultValue m)))
  | .ptrT r, v =>
    match (match v with
      | .pyStr s => PyVal.pyBytes (s.bind utf8Encode)
      | x => x) with
    | .pyInt n => .ok (.ptrV r none (some n))
    | v' =>
      match seqElems v' with
      | none => .error "TypeError: cannot be assigned"
      | some xs =>
        match castList r xs with
        | .error e => .error e
        | .ok vs => .ok (.ptrV r (some (.arrV r xs.length vs)) none)
termination_by t v => (sizeOf t, sizeOf v)

/-- The element-wise cast loops of `ArrayValue.cast` and
`PointerValue.cast`: the first failing element's exception propagates. -/
def castList : VType → List PyVal → Except String (List MValue)
  | _, [] => .ok []
  | t, x :: xs =>
    match castTo t x with
    | .error e => .error e
    | .ok v =>
      match castList t xs with
      | .error e => .error e
      | .ok vs => .ok (v :: vs)
termination_by t l => (sizeOf t, sizeOf l)

end

/-- The type a moria `Value` carries (`value.type`), for stating "a value
already of the target type". -/
def typeOfM : MValue → VType
  | .intV iv => .intT iv.type
  | .arrV m c _ => .arrT m c
  | .ptrV r _ _ => .ptrT r
  | .structV n => .structT n

/-- The cast claim exactly as the specification states it: every value
class's `cast` is the identity on values already of the target type and
idempotent on its accepted domain. -/
def C8Claim : Prop :=
  (∀ t v, typeOfM v = t → castTo t (.pyVal v) = .ok v)
  ∧ (∀ t x y, castTo t x = .ok y → castTo t (.pyVal y) = .ok y)

/-! ## Theorems -/

/-! ### Arithmetic facts about the byte codec -/

theorem natToBytesLE_length (s n : Nat) : (natToBytesLE s n).length = s := by
  induction s generalizing n with
  | zero => rfl
  | succ s ih => simp [natToBytesLE, ih]

theorem natToBytesLE_lt (s n : Nat) : ∀ x ∈ natToBytesLE s n, x < 256 := by
  induction s generalizing n with
  | zero => intro x hx; simp [natToBytesLE] at hx
  | succ s ih =>
    intro x hx
    simp only [natToBytesLE, List.mem_cons] at hx
    rcases hx with h | h
    · subst h; exact Nat.mod_lt _ (by norm_num)
    · exact ih _ x h

theorem bytesToNatLE_lt (b : List Nat) (hb : ∀ x ∈ b, x < 256) :
    bytesToNatLE b < 256 ^ b.length := by
  induction b with
  | nil => simp [bytesToNatLE]
  | cons x xs ih =>
    have hx : x < 256 := hb x (List.mem_cons_self _ _)
    have hxs := ih (fun y hy => hb y (List.mem_cons_of_mem _ hy))
    simp only [bytesToNatLE, List.length_cons, pow_succ]
    calc x + 256 * bytesToNatLE xs < 256 + 256 * bytesToNatLE xs := by omega
    _ = 256 * (bytesToNatLE xs + 1) := by ring
    _ ≤ 256 * 256 ^ xs.length := by
        exact Nat.mul_le_mul_left _ (by omega)
    _ = 256 ^ xs.length * 256 := by ring

theorem natToBytesLE_bytesToNatLE (b : List Nat) (hb : ∀ x ∈ b, x < 256) :
    natToBytesLE b.length (bytesToNatLE b) = b := by
  induction b with
  | nil => rfl
  | cons x xs ih =>
    have hx : x < 256 := hb x (List.mem_cons_self _ _)
    have hxs := ih (fun y hy => hb y (List.mem_cons_of_mem _ hy))
    simp only [List.length_cons, natToBytesLE, bytesToNatLE]
    rw [show (x + 256 * bytesToNatLE xs) % 256 = x by omega,
      show (x + 256 * bytesToNatLE xs) / 256 = bytesToNatLE xs by omega, hxs]

theorem bytesToNatLE_natToBytesLE (s n : Nat) (hn : n < 256 ^ s) :
    bytesToNatLE (natToBytesLE s n) = n := by
  induction s generalizing n with
  | zero => simp [natToBytesLE, bytesToNatLE] at *; omega
  | succ s ih =>
    simp only [natToBytesLE, bytesToNatLE]
    rw [ih (n / 256) (by
      rw [pow_succ] at hn
      exact Nat.div_lt_of_lt_mul (by linarith [hn]))]
    omega

theorem natToBytesLE_zero (s : Nat) : natToBytesLE s 0 = List.replicate s 0 := by
  induction s with
  | zero => rfl
  | succ s ih => simp [natToBytesLE, ih, List.replicate_succ]

theorem pow256_eq (s : Nat) : (256 : Nat) ^ s = 2 ^ (s * 8) := by
  rw [show (256 : Nat) = 2 ^ 8 from rfl, ← pow_mul, mul_comm]

theorem pow256_eq_int (s : Nat) : (((256 : Nat) ^ s : Nat) : Int) = 2 ^ (s * 8) := by
  rw [pow256_eq s]
  push_cast
  ring

theorem and_signBit (s num : Nat) (hs : 0 < s) (hnum : num < 2 ^ (s * 8)) :
    (num &&& 0x80 <<< (8 * (s - 1)) ≠ 0) ↔ 2 ^ (s * 8 - 1) ≤ num := by
  have hshift : (0x80 <<< (8 * (s - 1)) : Nat) = 2 ^ (s * 8 - 1) := by
    rw [show (0x80 : Nat) = 2 ^ 7 from rfl, Nat.shiftLeft_eq, ← pow_add]
    congr 1
    omega
  rw [hshift, Nat.and_two_pow]
  have hiter : s * 8 = (s * 8 - 1) + 1 := by omega
  constructor
  · intro h
    by_cases hb : num.testBit (s * 8 - 1) = true
    case neg => simp [Bool.not_eq_true] at hb; simp [hb] at h
    case pos => exact Nat.testBit_implies_ge hb
  · intro h
    have hlt : num / 2 ^ (s * 8 - 1) < 2 := by
      apply Nat.div_lt_of_lt_mul
      rw [hiter, pow_succ] at hnum
      linarith [hnum]
    have hge : 1 ≤ num / 2 ^ (s * 8 - 1) :=
      (Nat.one_le_div_iff (Nat.pos_pow_of_pos _ (by norm_num))).mpr h
    rw [Nat.testBit_to_div_mod]
    have : num / 2 ^ (s * 8 - 1) = 1 := by omega
    simp [this]

theorem neg_emod_two_pow (num k : Nat) (h0 : 0 < num) (hM : (num : Int) < 2 ^ k) :
    -((-(num : Int)) % (2 ^ k)) = (num : Int) - 2 ^ k := by
  have h1 : (-(num : Int)) % (2 ^ k) = 2 ^ k - num := by
    have h2 : (-(num : Int)) % (2 ^ k) = (-(num : Int) + 2 ^ k) % 2 ^ k :=
      (Int.add_emod_self).symm
    rw [h2, Int.emod_eq_of_lt (by omega) (by omega)]
    omega
  rw [h1]; ring

/-- Big-endian unpacking is little-endian unpacking of the reversed buffer. -/
theorem unpackIntegral_big_eq (s : Nat) (sg : Bool) (b : List Nat) :
    unpackIntegral b s sg .big = unpackIntegral b.reverse s sg .little := rfl

/-- What `_unpack_integral_type` computes on a well-formed little-endian
buffer: the reassembled number, minus `2^n` when signed with the top bit
set. -/
theorem unpackIntegral_little_spec (s : Nat) (sg : Bool)
    (b : List Nat) (hs : 0 < s) (hlen : b.length = s) (hb : ∀ x ∈ b, x < 256) :
    unpackIntegral b s sg .little =
      .ok (if sg ∧ 2 ^ (s * 8 - 1) ≤ bytesToNatLE b
           then (bytesToNatLE b : Int) - 2 ^ (s * 8)
           else (bytesToNatLE b : Int)) := by
  have hnum : bytesToNatLE b < 2 ^ (s * 8) := by
    rw [← pow256_eq]
    have := bytesToNatLE_lt _ hb
    rwa [hlen] at this
  unfold unpackIntegral
  rw [if_neg (fun h => Endianness.noConfusion h)]
  rw [if_neg (by omega), if_neg (by omega)]
  by_cases hsb : (sg = true) ∧ bytesToNatLE b &&& 0x80 <<< (8 * (s - 1)) ≠ 0
  · rw [if_pos hsb]
    have htop := (and_signBit s _ hs hnum).mp hsb.2
    rw [if_pos ⟨hsb.1, htop⟩]
    have hpos : 0 < bytesToNatLE b := by
      have : (0:Nat) < 2 ^ (s * 8 - 1) := Nat.pos_pow_of_pos _ (by norm_num)
      omega
    rw [neg_emod_two_pow _ _ hpos (by exact_mod_cast hnum)]
  · rw [if_neg hsb]
    rw [if_neg (by
      intro hcon
      exact hsb ⟨hcon.1, (and_signBit s _ hs hnum).mpr hcon.2⟩)]

/-- Big-endian packing reverses the little-endian byte list. -/
theorem packIntegral_big_eq (s : Nat) (sg : Bool) (num : Int) :
    packIntegral num s sg .big = (packIntegral num s sg .little).map List.reverse := by
  simp only [packIntegral]
  split_ifs <;> simp_all [Except.map]

/-- What `_pack_integral_type` computes when its (lenient) range check
passes: the little-endian bytes of `num mod 2^n`. -/
theorem packIntegral_little_spec (s : Nat) (sg : Bool) (num : Int)
    (hs : 0 < s)
    (hrange : if sg then -(2 ^ (s * 8 - 1) : Int) - 1 ≤ num ∧ num ≤ 2 ^ (s * 8 - 1)
              else 0 ≤ num ∧ num ≤ 2 ^ (s * 8 + 1) - 1) :
    packIntegral num s sg .little =
      .ok (natToBytesLE s (num % (2 ^ (s * 8))).toNat) := by
  unfold packIntegral
  rw [if_neg (by
    intro hcon
    omega)]
  rw [if_neg (by
    intro hcon
    apply hcon
    rcases Bool.eq_false_or_eq_true sg with hg | hg <;> rw [hg] at hrange ⊢ <;>
      simp only [if_true, if_false, Bool.false_eq_true] at hrange ⊢ <;>
      [skip; constructor] <;> omega)]
  rfl

theorem two_pow_split (s : Nat) (hs : 0 < s) :
    (2 : Int) ^ (s * 8) = 2 ^ (s * 8 - 1) * 2 := by
  conv_lhs => rw [show s * 8 = (s * 8 - 1) + 1 by omega]
  exact pow_succ 2 _

theorem natCast_two_pow (k : Nat) : (((2 : Nat) ^ k : Nat) : Int) = (2 : Int) ^ k := by
  push_cast
  ring

theorem unpack_then_pack_little (s : Nat) (sg : Bool) (b : List Nat)
    (hs : 0 < s) (hlen : b.length = s) (hb : ∀ x ∈ b, x < 256) :
    (unpackIntegral b s sg .little).bind (fun n => packIntegral n s sg .little) =
      .ok b := by
  have hnum : bytesToNatLE b < 2 ^ (s * 8) := by
    rw [← pow256_eq]
    have := bytesToNatLE_lt _ hb
    rwa [hlen] at this
  have hnumInt : (bytesToNatLE b : Int) < 2 ^ (s * 8) := by
    rw [← natCast_two_pow]
    exact Int.ofNat_lt.mpr hnum
  have hM : (2 : Int) ^ (s * 8) = 2 ^ (s * 8 - 1) * 2 := two_pow_split s hs
  have hMpos : (0 : Int) < 2 ^ (s * 8) := by positivity
  have hreassemble : natToBytesLE s (bytesToNatLE b) = b := by
    rw [← hlen]; exact natToBytesLE_bytesToNatLE b hb
  rw [unpackIntegral_little_spec s sg b hs hlen hb]
  by_cases hsb : (sg = true) ∧ 2 ^ (s * 8 - 1) ≤ bytesToNatLE b
  · rw [if_pos hsb]
    have htopInt : (2 : Int) ^ (s * 8 - 1) ≤ (bytesToNatLE b : Int) := by
      rw [← natCast_two_pow]
      exact Int.ofNat_le.mpr hsb.2
    show packIntegral ((bytesToNatLE b : Int) - 2 ^ (s * 8)) s sg .little = .ok b
    rw [packIntegral_little_spec s sg _ hs (by
      rw [if_pos hsb.1]
      constructor <;> omega)]
    have hemod : ((bytesToNatLE b : Int) - 2 ^ (s * 8)) % (2 ^ (s * 8)) =
        (bytesToNatLE b : Int) := by
      have h2 : ((bytesToNatLE b : Int) - 2 ^ (s * 8) + 2 ^ (s * 8)) % (2 ^ (s * 8)) =
          ((bytesToNatLE b : Int) - 2 ^ (s * 8)) % (2 ^ (s * 8)) := Int.add_emod_self
      have h3 : (bytesToNatLE b : Int) - 2 ^ (s * 8) + 2 ^ (s * 8) =
          (bytesToNatLE b : Int) := by ring
      rw [h3] at h2
      rw [← h2, Int.emod_eq_of_lt (by omega) hnumInt]
    rw [hemod, Int.toNat_natCast, hreassemble]
  · rw [if_neg hsb]
    show packIntegral (bytesToNatLE b : Int) s sg .little = .ok b
    rw [packIntegral_little_spec s sg _ hs (by
      rcases Bool.eq_false_or_eq_true sg with hg | hg
      · rw [if_pos hg]
        have hlt : bytesToNatLE b < 2 ^ (s * 8 - 1) := by
          by_contra hcon
          exact hsb ⟨hg, by omega⟩
        have hltInt : (bytesToNatLE b : Int) < 2 ^ (s * 8 - 1) := by
          rw [← natCast_two_pow]
          exact Int.ofNat_lt.mpr hlt
        constructor <;> omega
      · rw [if_neg (by rw [hg]; exact Bool.false_ne_true)]
        constructor <;> omega)]
    rw [Int.emod_eq_of_lt (by positivity) hnumInt, Int.toNat_natCast, hreassemble]

theorem pack_then_unpack_little (s : Nat) (sg : Bool) (v : Int) (hs : 0 < s)
    (hmin : IntType.minFor s sg ≤ v) (hmax : v ≤ IntType.maxFor s sg) :
    (packIntegral v s sg .little).bind (fun bs => unpackIntegral bs s sg .little) =
      .ok v := by
  have hM : (2 : Int) ^ (s * 8) = 2 ^ (s * 8 - 1) * 2 := two_pow_split s hs
  have hMpos : (0 : Int) < 2 ^ (s * 8) := by positivity
  rcases Bool.eq_false_or_eq_true sg with hg | hg
  all_goals subst hg
  · -- signed
    rw [show IntType.minFor s true = -(2 ^ (s * 8 - 1)) by
      unfold IntType.minFor; rw [if_pos rfl]; unfold IntType.maxFor
      rw [if_pos rfl]; ring] at hmin
    rw [show IntType.maxFor s true = 2 ^ (s * 8 - 1) - 1 from rfl] at hmax
    rw [packIntegral_little_spec s true v hs (by
      rw [if_pos rfl]; constructor <;> omega)]
    have hemod0 : 0 ≤ v % (2 ^ (s * 8)) := Int.emod_nonneg v (by omega)
    have hemodlt : v % (2 ^ (s * 8)) < 2 ^ (s * 8) := Int.emod_lt_of_pos v hMpos
    have hmlt : (v % (2 ^ (s * 8))).toNat < 2 ^ (s * 8) := by
      have hc := natCast_two_pow (s * 8)
      omega
    show unpackIntegral (natToBytesLE s (v % (2 ^ (s * 8))).toNat) s true .little = .ok v
    rw [unpackIntegral_little_spec s true _ hs (natToBytesLE_length s _)
      (natToBytesLE_lt s _)]
    rw [bytesToNatLE_natToBytesLE s _ (by rw [pow256_eq]; exact hmlt)]
    by_cases hvneg : v < 0
    · have hvemod : v % (2 ^ (s * 8)) = v + 2 ^ (s * 8) := by
        have h2 : (v + 2 ^ (s * 8)) % (2 ^ (s * 8)) = v % (2 ^ (s * 8)) :=
          Int.add_emod_self
        rw [← h2, Int.emod_eq_of_lt (by omega) (by omega)]
      have hcondInt : (2 : Int) ^ (s * 8 - 1) ≤ v % (2 ^ (s * 8)) := by
        rw [hvemod]; omega
      have hcond : 2 ^ (s * 8 - 1) ≤ (v % (2 ^ (s * 8))).toNat := by
        have hc := natCast_two_pow (s * 8 - 1)
        omega
      rw [if_pos ⟨rfl, hcond⟩]
      congr 1
      rw [show ((v % (2 ^ (s * 8))).toNat : Int) = v % (2 ^ (s * 8)) by omega, hvemod]
      ring
    · push_neg at hvneg
      have hvemod : v % (2 ^ (s * 8)) = v := Int.emod_eq_of_lt hvneg (by omega)
      have hcond : ¬ (2 ^ (s * 8 - 1) ≤ (v % (2 ^ (s * 8))).toNat) := by
        have hc := natCast_two_pow (s * 8 - 1)
        rw [hvemod]
        omega
      rw [if_neg (fun hcon => hcond hcon.2), hvemod]
      congr 1
      omega
  · -- unsigned
    rw [show IntType.minFor s false = 0 from rfl] at hmin
    rw [show IntType.maxFor s false = 2 ^ (s * 8) - 1 from rfl] at hmax
    rw [packIntegral_little_spec s false v hs (by
      rw [if_neg (by exact Bool.false_ne_true)]; constructor <;> omega)]
    have hvemod : v % (2 ^ (s * 8)) = v := Int.emod_eq_of_lt hmin (by omega)
    show unpackIntegral (natToBytesLE s (v % (2 ^ (s * 8))).toNat) s false .little = .ok v
    rw [unpackIntegral_little_spec s false _ hs (natToBytesLE_length s _)
      (natToBytesLE_lt s _)]
    rw [bytesToNatLE_natToBytesLE s _ (by
      rw [pow256_eq, hvemod]
      have hc := natCast_two_pow (s * 8)
      omega)]
    rw [if_neg (by intro hcon; exact Bool.false_ne_true hcon.1), hvemod]
    congr 1
    omega

theorem packIntegral_length (num : Int) (s : Nat) (sg : Bool) (e : Endianness)
    (bs : List Nat) (h : packIntegral num s sg e = .ok bs) : bs.length = s := by
  unfold packIntegral at h
  dsimp only at h
  split_ifs at h with h1 h2 <;>
    first
      | (injection h with h3; subst h3; simp [natToBytesLE_length])
      | injection h

theorem IntValue.init_in_range (s : Nat) (sg : Bool) (p : Int)
    (hmin : IntType.minFor s sg ≤ p) (hmax : p ≤ IntType.maxFor s sg) :
    IntValue.init ⟨some s, sg⟩ (some p) = .ok ⟨⟨some s, sg⟩, some p⟩ := by
  unfold IntValue.init
  dsimp only
  by_cases hp : p = 0
  · subst hp; rfl
  · rw [if_neg hp]
    rw [if_neg (by push_neg; exact ⟨hmin, hmax⟩)]

/-- C2: integer serialization round-trips in both directions.  For every
`IntType` of known positive size `s` (any signedness, any endianness):
unpacking a length-`s` byte string with `_unpack_integral_type` and
re-packing it with `_pack_integral_type` yields the same bytes; and for an
`IntValue` whose payload lies in `[type.min, type.max]`, packing it and
unpacking the bytes yields a value with the same payload. -/
theorem intSerialization_roundtrip (s : Nat) (sg : Bool) (e : Endianness)
    (hs : 0 < s) :
    (∀ b : List Nat, b.length = s → (∀ x ∈ b, x < 256) →
      (unpackIntegral b s sg e).bind (fun n => packIntegral n s sg e) = .ok b)
  ∧ (∀ p : Int, IntType.minFor s sg ≤ p → p ≤ IntType.maxFor s sg →
      (IntValue.pack ⟨⟨some s, sg⟩, some p⟩ e).bind
        (fun bs => IntValue.unpackFromBuffer ⟨some s, sg⟩ bs e) =
        .ok ⟨⟨some s, sg⟩, some p⟩) := by
  constructor
  · intro b hlen hb
    cases e
    · exact unpack_then_pack_little s sg b hs hlen hb
    · rw [unpackIntegral_big_eq]
      have hrevlen : b.reverse.length = s := by simpa using hlen
      have hrevmem : ∀ x ∈ b.reverse, x < 256 := fun x hx =>
        hb x (List.mem_reverse.mp hx)
      have h := unpack_then_pack_little s sg b.reverse hs hrevlen hrevmem
      cases hu : unpackIntegral b.reverse s sg .little with
      | error err => rw [hu] at h; exact absurd h (by simp [Except.bind])
      | ok n =>
        rw [hu] at h
        simp only [Except.bind] at h ⊢
        rw [packIntegral_big_eq, h]
        simp [Except.map]
  · intro p hmin hmax
    have hcomp := pack_then_unpack_little s sg p hs hmin hmax
    cases hp : packIntegral p s sg .little with
    | error err => rw [hp] at hcomp; exact absurd hcomp (by simp [Except.bind])
    | ok bs =>
      rw [hp] at hcomp
      simp only [Except.bind] at hcomp
      have hlen : bs.length = s := packIntegral_length p s sg .little bs hp
      have hinit := IntValue.init_in_range s sg p hmin hmax
      cases e
      · show (packIntegral p s sg .little).bind
          (fun bs => IntValue.unpackFromBuffer ⟨some s, sg⟩ bs .little) = _
        rw [hp]
        simp only [Except.bind]
        unfold IntValue.unpackFromBuffer
        simp only
        rw [if_neg (by omega), hcomp]
        exact hinit
      · show (packIntegral p s sg .big).bind
          (fun bs => IntValue.unpackFromBuffer ⟨some s, sg⟩ bs .big) = _
        rw [packIntegral_big_eq, hp]
        simp only [Except.bind, Except.map]
        unfold IntValue.unpackFromBuffer
        simp only
        rw [if_neg (by simp [hlen]), unpackIntegral_big_eq,
          List.reverse_reverse, hcomp]
        exact hinit

/-- Witness for C2 at a concrete instance: a signed 2-byte little-endian
type, the buffer `[0x80, 0xFF]`, and the payload `-2`. -/
theorem intSerialization_roundtrip_witness :
    (unpackIntegral [0x80, 0xFF] 2 true .little).bind
        (fun n => packIntegral n 2 true .little) = .ok [0x80, 0xFF]
  ∧ (IntValue.pack ⟨⟨some 2, true⟩, some (-2)⟩ .little).bind
        (fun bs => IntValue.unpackFromBuffer ⟨some 2, true⟩ bs .little) =
        .ok ⟨⟨some 2, true⟩, some (-2)⟩ :=
  ⟨(intSerialization_roundtrip 2 true .little (by decide)).1 [0x80, 0xFF]
      (by decide) (by decide),
   (intSerialization_roundtrip 2 true .little (by decide)).2 (-2)
      (by decide) (by decide)⟩

/-- C7: constructing an `IntValue` with payload `p` fails with `OutOfRange`
exactly when `p` lies outside `[min, max]`, where `min`/`max` are the
canonical bounds for the type's size and signedness (`n = 8·size` bits);
the boundary payloads `min` and `max` are accepted and `min - 1` / `max + 1`
are rejected. -/
theorem IntType.minFor_true (s : Nat) :
    IntType.minFor s true = -(2 ^ (s * 8 - 1)) := by
  unfold IntType.minFor
  rw [if_pos rfl]
  unfold IntType.maxFor
  rw [if_pos rfl]
  ring

theorem IntType.maxFor_true (s : Nat) :
    IntType.maxFor s true = 2 ^ (s * 8 - 1) - 1 := rfl

theorem IntType.minFor_false (s : Nat) : IntType.minFor s false = 0 := rfl

theorem IntType.maxFor_false (s : Nat) :
    IntType.maxFor s false = 2 ^ (s * 8) - 1 := rfl

theorem intValue_init_out_of_range (s : Nat) (sg : Bool) (hs : 0 < s) :
    (∀ p : Int, IntValue.init ⟨some s, sg⟩ (some p) = .error "OutOfRange" ↔
        ¬(IntType.minFor s sg ≤ p ∧ p ≤ IntType.maxFor s sg))
  ∧ IntType.minFor s sg = (if sg then -(2 ^ (8 * s - 1)) else 0)
  ∧ IntType.maxFor s sg = (if sg then 2 ^ (8 * s - 1) - 1 else 2 ^ (8 * s) - 1)
  ∧ IntValue.init ⟨some s, sg⟩ (some (IntType.minFor s sg)) =
      .ok ⟨⟨some s, sg⟩, some (IntType.minFor s sg)⟩
  ∧ IntValue.init ⟨some s, sg⟩ (some (IntType.maxFor s sg)) =
      .ok ⟨⟨some s, sg⟩, some (IntType.maxFor s sg)⟩
  ∧ IntValue.init ⟨some s, sg⟩ (some (IntType.minFor s sg - 1)) =
      .error "OutOfRange"
  ∧ IntValue.init ⟨some s, sg⟩ (some (IntType.maxFor s sg + 1)) =
      .error "OutOfRange" := by
  have hpow : (0 : Int) < 2 ^ (s * 8 - 1) := by positivity
  have hpow2 : (0 : Int) < 2 ^ (s * 8) := by positivity
  have hminmax : IntType.minFor s sg ≤ 0 ∧ (0 : Int) ≤ IntType.maxFor s sg := by
    rcases Bool.eq_false_or_eq_true sg with hg | hg <;> subst hg
    · rw [IntType.minFor_true, IntType.maxFor_true]
      constructor <;> omega
    · rw [IntType.minFor_false, IntType.maxFor_false]
      constructor <;> omega
  have hiff : ∀ p : Int, IntValue.init ⟨some s, sg⟩ (some p) = .error "OutOfRange" ↔
      ¬(IntType.minFor s sg ≤ p ∧ p ≤ IntType.maxFor s sg) := by
    intro p
    unfold IntValue.init
    dsimp only
    by_cases hp : p = 0
    · subst hp
      rw [if_pos rfl]
      constructor
      · intro hcon; cases hcon
      · intro hcon; exact absurd ⟨hminmax.1, hminmax.2⟩ hcon
    · rw [if_neg hp]
      by_cases hrange : IntType.minFor s sg ≤ p ∧ p ≤ IntType.maxFor s sg
      · rw [if_neg (by push_neg; exact ⟨hrange.1, hrange.2⟩)]
        constructor
        · intro hcon; cases hcon
        · intro hcon; exact absurd hrange hcon
      · rw [if_pos hrange]
        exact ⟨fun _ => hrange, fun _ => rfl⟩
  refine ⟨hiff, ?_, ?_, ?_, ?_, ?_, ?_⟩
  · rcases Bool.eq_false_or_eq_true sg with hg | hg <;> subst hg
    · rw [IntType.minFor_true, if_pos rfl, Nat.mul_comm 8 s]
    · rw [IntType.minFor_false, if_neg (by exact Bool.false_ne_true)]
  · rcases Bool.eq_false_or_eq_true sg with hg | hg <;> subst hg
    · rw [IntType.maxFor_true, if_pos rfl, Nat.mul_comm 8 s]
    · rw [IntType.maxFor_false, if_neg (by exact Bool.false_ne_true), Nat.mul_comm 8 s]
  · exact IntValue.init_in_range s sg _ le_rfl (hminmax.1.trans hminmax.2)
  · exact IntValue.init_in_range s sg _ (hminmax.1.trans hminmax.2) le_rfl
  · rw [hiff]; omega
  · rw [hiff]; omega

/-- Witness for C7 at `int8_t` (size 1, signed). -/
theorem intValue_init_out_of_range_witness :
    IntValue.init ⟨some 1, true⟩ (some (-128)) =
      .ok ⟨⟨some 1, true⟩, some (-128)⟩
  ∧ IntValue.init ⟨some 1, true⟩ (some (-129)) = .error "OutOfRange" := by
  have h := intValue_init_out_of_range 1 true (by decide)
  refine ⟨?_, ?_⟩
  · have := h.2.2.2.1
    simpa using this
  · rw [h.1 (-129)]
    decide

/-- C10: packing an `IntValue` whose payload was never set succeeds and
yields exactly `size` zero bytes, the same bytes as packing the value 0. -/
theorem intValue_pack_unset (s : Nat) (sg : Bool) (e : Endianness) (hs : 0 < s) :
    IntValue.pack ⟨⟨some s, sg⟩, none⟩ e = .ok (List.replicate s 0)
  ∧ IntValue.pack ⟨⟨some s, sg⟩, some 0⟩ e = .ok (List.replicate s 0) := by
  have hpow : (0 : Int) < 2 ^ (s * 8 - 1) := by positivity
  have hzero : packIntegral 0 s sg .little = .ok (List.replicate s 0) := by
    rw [packIntegral_little_spec s sg 0 hs (by
      rcases Bool.eq_false_or_eq_true sg with hg | hg <;> subst hg
      · rw [if_pos rfl]; constructor <;> omega
      · rw [if_neg (by exact Bool.false_ne_true)]
        have h1 : (0 : Int) < 2 ^ (s * 8 + 1) := by positivity
        constructor <;> omega)]
    norm_num
    exact natToBytesLE_zero s
  have hpack : packIntegral 0 s sg e = .ok (List.replicate s 0) := by
    cases e
    · exact hzero
    · rw [packIntegral_big_eq, hzero]
      simp [Except.map, List.reverse_replicate]
  exact ⟨hpack, hpack⟩

/-- Witness for C10 at a 4-byte unsigned little-endian type. -/
theorem intValue_pack_unset_witness :
    IntValue.pack ⟨⟨some 4, false⟩, none⟩ .little = .ok (List.replicate 4 0)
  ∧ IntValue.pack ⟨⟨some 4, false⟩, some 0⟩ .little = .ok (List.replicate 4 0) :=
  intValue_pack_unset 4 false .little (by decide)

theorem scan_foldl_with_acc (size : Int) (l : List FreeChunk) :
    ∀ (n : Nat) (o : Int) (i : Nat) (a : Int),
    List.foldl (scanStep size) ⟨some o, some i, some a⟩ (List.enumFrom n l) =
      mergeAcc o i a (bestFitRef size l n) := by
  induction l with
  | nil => intro n o i a; rfl
  | cons c rest ih =>
    intro n o i a
    simp only [List.enumFrom, List.foldl_cons, bestFitRef]
    by_cases hc : size ≤ c.size
    · rw [show scanStep size ⟨some o, some i, some a⟩ (n, c) =
        (if c.size - size < o then ⟨some (c.size - size), some n, some c.address⟩
         else ⟨some o, some i, some a⟩) from by
          unfold scanStep
          rw [if_pos (by simpa using hc)]]
      rw [if_pos hc]
      by_cases himp : c.size - size < o
      · rw [if_pos himp, ih (n + 1) (c.size - size) n c.address]
        cases hrb : bestFitRef size rest (n + 1) with
        | none => simp [mergeAcc, himp]
        | some t =>
          obtain ⟨i', a', o'⟩ := t
          by_cases h1 : o' < c.size - size
          · have ho : o' < o := by omega
            simp [mergeAcc, h1, ho]
          · simp [mergeAcc, h1, himp]
      · rw [if_neg himp, ih (n + 1) o i a]
        cases hrb : bestFitRef size rest (n + 1) with
        | none => simp [mergeAcc, himp]
        | some t =>
          obtain ⟨i', a', o'⟩ := t
          by_cases h1 : o' < c.size - size
          · simp [mergeAcc, h1]
          · have ho : ¬ o' < o := by omega
            simp [mergeAcc, h1, himp, ho]
    · rw [show scanStep size ⟨some o, some i, some a⟩ (n, c) = ⟨some o, some i, some a⟩
        from by
          unfold scanStep
          rw [if_neg (by simpa using hc)]]
      rw [ih (n + 1) o i a, if_neg hc]

theorem scan_foldl_none (size : Int) (l : List FreeChunk) :
    ∀ n : Nat,
    List.foldl (scanStep size) ⟨none, none, none⟩ (List.enumFrom n l) =
      refToAcc (bestFitRef size l n) := by
  induction l with
  | nil => intro n; rfl
  | cons c rest ih =>
    intro n
    simp only [List.enumFrom, List.foldl_cons, bestFitRef]
    by_cases hc : size ≤ c.size
    · rw [show scanStep size ⟨none, none, none⟩ (n, c) =
        ⟨some (c.size - size), some n, some c.address⟩ from by
          unfold scanStep
          rw [if_pos (by simpa using hc)]]
      rw [scan_foldl_with_acc size rest (n + 1) (c.size - size) n c.address, if_pos hc]
      cases hrb : bestFitRef size rest (n + 1) with
      | none => rfl
      | some t =>
        obtain ⟨i', a', o'⟩ := t
        by_cases h1 : o' < c.size - size
        · simp [mergeAcc, refToAcc, h1]
        · simp [mergeAcc, refToAcc, h1]
    · rw [show scanStep size ⟨none, none, none⟩ (n, c) = ⟨none, none, none⟩ from by
          unfold scanStep
          rw [if_neg (by simpa using hc)]]
      rw [ih (n + 1), if_neg hc]

theorem bestFitRef_none_iff (size : Int) (l : List FreeChunk) :
    ∀ n, bestFitRef size l n = none ↔ ∀ c ∈ l, c.size < size := by
  induction l with
  | nil => intro n; simp [bestFitRef]
  | cons c rest ih =>
    intro n
    simp only [bestFitRef]
    by_cases hc : size ≤ c.size
    · rw [if_pos hc]
      constructor
      · intro h
        exfalso
        cases hrb : bestFitRef size rest (n + 1) with
        | none => rw [hrb] at h; simp at h
        | some t => obtain ⟨i', a', o'⟩ := t; rw [hrb] at h; dsimp at h; split at h <;> simp at h
      · intro h
        exact absurd (h c (List.mem_cons_self _ _)) (by omega)
    · rw [if_neg hc]
      rw [ih (n + 1)]
      constructor
      · intro h x hx
        rcases List.mem_cons.mp hx with hx | hx
        · subst hx; omega
        · exact h x hx
      · intro h x hx
        exact h x (List.mem_cons_of_mem _ hx)

theorem bestFitRef_some_spec (size : Int) (l : List FreeChunk) :
    ∀ n i a o, bestFitRef size l n = some (i, a, o) →
      n ≤ i ∧ ∃ c, l.get? (i - n) = some c ∧ a = c.address ∧ o = c.size - size ∧
        size ≤ c.size ∧
        (∀ k ck, l.get? k = some ck → size ≤ ck.size → o ≤ ck.size - size) ∧
        (∀ k ck, l.get? k = some ck → size ≤ ck.size → n + k < i →
          o < ck.size - size) := by
  induction l with
  | nil => intro n i a o h; simp [bestFitRef] at h
  | cons c rest ih =>
    intro n i a o h
    simp only [bestFitRef] at h
    by_cases hc : size ≤ c.size
    · rw [if_pos hc] at h
      cases hrb : bestFitRef size rest (n + 1) with
      | none =>
        rw [hrb] at h
        dsimp only at h
        simp only [Option.some.injEq, Prod.mk.injEq] at h
        obtain ⟨rfl, rfl, rfl⟩ := h
        have hrestlt : ∀ x ∈ rest, x.size < size :=
          (bestFitRef_none_iff size rest (n + 1)).mp hrb
        refine ⟨le_rfl, c, by simp, rfl, rfl, hc, ?_, ?_⟩
        · intro k ck hk hsz
          cases k with
          | zero =>
            simp only [List.get?] at hk
            injection hk with hk
            subst hk
            omega
          | succ k =>
            simp only [List.get?] at hk
            exact absurd hsz (by
              have := hrestlt ck (List.get?_mem hk)
              omega)
        · intro k ck hk hsz hlt
          omega
      | some t =>
        obtain ⟨i', a', o'⟩ := t
        rw [hrb] at h
        dsimp only at h
        by_cases h1 : o' < c.size - size
        · rw [if_pos h1] at h
          simp only [Option.some.injEq, Prod.mk.injEq] at h
          obtain ⟨rfl, rfl, rfl⟩ := h
          obtain ⟨hni, c', hget, ha, ho, hcsz, hmin, hearly⟩ :=
            ih (n + 1) i' a' o' hrb
          refine ⟨by omega, c', ?_, ha, ho, hcsz, ?_, ?_⟩
          · rw [show i' - n = (i' - (n + 1)) + 1 from by omega]
            simpa using hget
          · intro k ck hk hsz
            cases k with
            | zero =>
              simp only [List.get?] at hk
              injection hk with hk
              subst hk
              omega
            | succ k =>
              simp only [List.get?] at hk
              exact hmin k ck hk hsz
          · intro k ck hk hsz hlt
            cases k with
            | zero =>
              simp only [List.get?] at hk
              injection hk with hk
              subst hk
              omega
            | succ k =>
              simp only [List.get?] at hk
              exact hearly k ck hk hsz (by omega)
        · rw [if_neg h1] at h
          simp only [Option.some.injEq, Prod.mk.injEq] at h
          obtain ⟨rfl, rfl, rfl⟩ := h
          obtain ⟨hni, c', hget, ha, ho, hcsz, hmin, hearly⟩ :=
            ih (n + 1) i' a' o' hrb
          refine ⟨le_rfl, c, by simp, rfl, rfl, hc, ?_, ?_⟩
          · intro k ck hk hsz
            cases k with
            | zero =>
              simp only [List.get?] at hk
              injection hk with hk
              subst hk
              omega
            | succ k =>
              simp only [List.get?] at hk
              have := hmin k ck hk hsz
              omega
          · intro k ck hk hsz hlt
            omega
    · rw [if_neg hc] at h
      obtain ⟨hni, c', hget, ha, ho, hcsz, hmin, hearly⟩ := ih (n + 1) i a o h
      refine ⟨by omega, c', ?_, ha, ho, hcsz, ?_, ?_⟩
      · rw [show i - n = (i - (n + 1)) + 1 from by omega]
        simpa using hget
      · intro k ck hk hsz
        cases k with
        | zero =>
          simp only [List.get?] at hk
          injection hk with hk
          subst hk
          omega
        | succ k =>
          simp only [List.get?] at hk
          exact hmin k ck hk hsz
      · intro k ck hk hsz hlt
        cases k with
        | zero =>
          simp only [List.get?] at hk
          injection hk with hk
          subst hk
          omega
        | succ k =>
          simp only [List.get?] at hk
          exact hearly k ck hk hsz (by omega)

/-- Inversion of a successful `FreeChunk.split`. -/
theorem FreeChunk.split_ok (c : FreeChunk) (a sz : Int) (pieces : List FreeChunk)
    (h : c.split a sz = .ok pieces) :
    c.address ≤ a ∧ a + sz ≤ c.endAddr ∧ 0 ≤ sz ∧
    pieces = (if a > c.address then [⟨c.address, a - c.address⟩] else []) ++
             (if a + sz < c.endAddr then [⟨a + sz, c.endAddr - (a + sz)⟩] else []) := by
  unfold FreeChunk.split at h
  dsimp only at h
  by_cases hw : a < c.address ∨ a + sz > c.endAddr ∨ sz < 0
  · rw [if_pos hw] at h
    cases h
  · rw [if_neg hw] at h
    push_neg at hw
    injection h with h2
    exact ⟨hw.1, hw.2.1, hw.2.2, h2.symm⟩

/-- A successful `FreeChunk.split` exactly when the window is inside the
chunk and the size is non-negative. -/
theorem FreeChunk.split_succeeds (c : FreeChunk) (a sz : Int)
    (h1 : c.address ≤ a) (h2 : a + sz ≤ c.endAddr) (h3 : 0 ≤ sz) :
    c.split a sz =
      .ok ((if a > c.address then [⟨c.address, a - c.address⟩] else []) ++
           (if a + sz < c.endAddr then [⟨a + sz, c.endAddr - (a + sz)⟩] else [])) := by
  unfold FreeChunk.split
  rw [if_neg (by push_neg; exact ⟨h1, h2, h3⟩)]

/-- C3: with no forced address, `HeapPacker.alloc(size)` allocates at the
start of the free chunk minimizing `chunk.size - size` among chunks with
`chunk.size ≥ size`, preferring the earliest such chunk on ties, and fails
with `OutOfSpace` when no free chunk has at least `size` bytes. -/
theorem heapPacker_alloc_best_fit (chunks : List FreeChunk) (size : Int)
    (hsz : 0 ≤ size) :
    ((∀ c ∈ chunks, c.size < size) →
      HeapPacker.alloc chunks size none = .error "OutOfSpace")
  ∧ (∀ i c, chunks.get? i = some c → size ≤ c.size →
      ∃ j cj rest, chunks.get? j = some cj ∧ size ≤ cj.size ∧
        HeapPacker.alloc chunks size none = .ok (cj.address, rest) ∧
        (∀ k ck, chunks.get? k = some ck → size ≤ ck.size →
          cj.size - size ≤ ck.size - size) ∧
        (∀ k ck, k < j → chunks.get? k = some ck → size ≤ ck.size →
          cj.size - size < ck.size - size)) := by
  have henum : chunks.enum = List.enumFrom 0 chunks := rfl
  constructor
  · intro hall
    have hnone : bestFitRef size chunks 0 = none :=
      (bestFitRef_none_iff size chunks 0).mpr hall
    unfold HeapPacker.alloc
    dsimp only
    rw [henum, scan_foldl_none size chunks 0, hnone]
    rfl
  · intro i c hget hcsz
    have hne : bestFitRef size chunks 0 ≠ none := by
      intro hcon
      have := (bestFitRef_none_iff size chunks 0).mp hcon c (List.get?_mem hget)
      omega
    cases hrb : bestFitRef size chunks 0 with
    | none => exact absurd hrb hne
    | some t =>
      obtain ⟨j, a, o⟩ := t
      obtain ⟨hnj, cj, hjget, ha, ho, hjsz, hmin, hearly⟩ :=
        bestFitRef_some_spec size chunks 0 j a o hrb
      subst ha
      subst ho
      rw [Nat.sub_zero] at hjget
      refine ⟨j, cj, ?_, hjget, hjsz, ?_, ?_, ?_⟩
      case _ =>
        exact chunks.take j ++
          ((if cj.address > cj.address then [⟨cj.address, cj.address - cj.address⟩] else []) ++
           (if cj.address + size < cj.endAddr then
              [⟨cj.address + size, cj.endAddr - (cj.address + size)⟩] else [])) ++
          chunks.drop (j + 1)
      · -- the allocation call reduces to the chosen chunk
        unfold HeapPacker.alloc
        dsimp only
        rw [henum, scan_foldl_none size chunks 0, hrb]
        dsimp only [refToAcc]
        rw [hjget]
        dsimp only
        rw [FreeChunk.split_succeeds cj cj.address size le_rfl
          (by unfold FreeChunk.endAddr; omega) hsz]
      · intro k ck hk hksz
        have := hmin k ck hk hksz
        omega
      · intro k ck hklt hk hksz
        have := hearly k ck hk hksz (by omega)
        omega

/-- Witness for C3: a single 3-byte chunk cannot satisfy a 4-byte request. -/
theorem heapPacker_alloc_best_fit_witness :
    HeapPacker.alloc [⟨0, 3⟩] 4 none = .error "OutOfSpace" :=
  (heapPacker_alloc_best_fit [⟨0, 3⟩] 4 (by decide)).1 (by decide)

/-- Inversion of a successful `HeapPacker.alloc`: some chunk of the list is
split at a window contained in it, and the window has non-negative size. -/
theorem alloc_ok_inversion (chunks : List FreeChunk) (sz : Int)
    (force : Option Int) (a : Int) (chunks' : List FreeChunk)
    (h : HeapPacker.alloc chunks sz force = .ok (a, chunks')) :
    ∃ idx c pieces, chunks.get? idx = some c ∧ c.split a sz = .ok pieces ∧
      chunks' = chunks.take idx ++ pieces ++ chunks.drop (idx + 1) ∧
      c.address ≤ a ∧ a + sz ≤ c.endAddr ∧ 0 ≤ sz := by
  unfold HeapPacker.alloc at h
  dsimp only at h
  split at h
  · cases h
  · rename_i found idx a' hfound
    split at h
    · cases h
    · rename_i c hc
      split at h
      · cases h
      · rename_i pieces hsplit
        injection h with h2
        injection h2 with ha hchunks
        subst ha
        obtain ⟨h1, h2, h3, _⟩ := FreeChunk.split_ok c a' sz pieces hsplit
        exact ⟨idx, c, pieces, hc, hsplit, hchunks.symm, h1, h2, h3⟩

/-- What the pieces of a successful split cover: the part of the old chunk
outside the allocated window. -/
theorem split_pieces_spec (c : FreeChunk) (a sz : Int) (pieces : List FreeChunk)
    (h : c.split a sz = .ok pieces) :
    (∀ d ∈ pieces, c.address ≤ d.address ∧ d.address + d.size ≤ c.endAddr) ∧
    (∀ x, (∃ d ∈ pieces, d.address ≤ x ∧ x < d.address + d.size) →
      (c.address ≤ x ∧ x < c.endAddr ∧ ¬(a ≤ x ∧ x < a + sz))) ∧
    pieces.Pairwise ChunkDisj := by
  obtain ⟨h1, h2, h3, hp⟩ := FreeChunk.split_ok c a sz pieces h
  subst hp
  unfold FreeChunk.endAddr at *
  by_cases hb : a > c.address <;> by_cases ha : a + sz < c.address + c.size <;>
    simp only [hb, ha, if_pos, if_neg, if_true, if_false] <;>
    refine ⟨?_, ?_, ?_⟩ <;>
    simp_all [FreeChunk.endAddr, ChunkDisj] <;>
    first
      | (intro x hx; omega)
      | (intro x d hd; omega)
      | omega
      | (constructor <;> omega)

/-- Decomposition of the free list at a hit index. -/
theorem chunks_decomp (chunks : List FreeChunk) (idx : Nat) (c : FreeChunk)
    (hc : chunks.get? idx = some c) :
    chunks = chunks.take idx ++ c :: chunks.drop (idx + 1) := by
  obtain ⟨hlt, hget⟩ := List.get?_eq_some.mp hc
  have hgetelem : chunks[idx] = c := by simpa using hget
  conv_lhs => rw [← List.take_append_drop idx chunks,
    List.drop_eq_getElem_cons hlt, hgetelem]

/-- The main allocation invariant: a successful `alloc` hands out a window
covered by the old free list, and the new free list is pairwise disjoint,
covers only old points outside the window, and stays inside old chunks. -/
theorem alloc_spec (chunks : List FreeChunk) (sz : Int) (force : Option Int)
    (a : Int) (chunks' : List FreeChunk)
    (hpd : chunks.Pairwise ChunkDisj)
    (h : HeapPacker.alloc chunks sz force = .ok (a, chunks')) :
    0 ≤ sz ∧
    (∀ x, a ≤ x → x < a + sz → covered chunks x) ∧
    (∀ x, covered chunks' x → covered chunks x ∧ ¬(a ≤ x ∧ x < a + sz)) ∧
    chunks'.Pairwise ChunkDisj ∧
    (∀ d ∈ chunks', ∃ c0 ∈ chunks, c0.address ≤ d.address ∧
      d.address + d.size ≤ c0.address + c0.size) ∧
    (∃ c0 ∈ chunks, c0.address ≤ a ∧ a + sz ≤ c0.address + c0.size) := by
  obtain ⟨idx, c, pieces, hc, hsplit, hchunks', hca, hae, hsz⟩ :=
    alloc_ok_inversion chunks sz force a chunks' h
  obtain ⟨hin, hcov, hppd⟩ := split_pieces_spec c a sz pieces hsplit
  have hdecomp := chunks_decomp chunks idx c hc
  have hcmem : c ∈ chunks := List.get?_mem hc
  -- disjointness of the untouched chunks from c
  have hdisj : ∀ d, (d ∈ chunks.take idx ∨ d ∈ chunks.drop (idx + 1)) →
      ChunkDisj d c := by
    intro d hd
    have hpd' : (chunks.take idx ++ c :: chunks.drop (idx + 1)).Pairwise ChunkDisj := by
      rw [← hdecomp]; exact hpd
    rw [List.pairwise_append] at hpd'
    rcases hd with hd | hd
    · exact hpd'.2.2 d hd c (List.mem_cons_self _ _)
    · have := (List.pairwise_cons.mp hpd'.2.1).1 d hd
      unfold ChunkDisj at this ⊢
      omega
  have hmem' : ∀ d ∈ chunks', d ∈ chunks.take idx ∨ d ∈ pieces ∨
      d ∈ chunks.drop (idx + 1) := by
    intro d hd
    rw [hchunks'] at hd
    rcases List.mem_append.mp hd with hd | hd
    · rcases List.mem_append.mp hd with hd | hd
      · exact Or.inl hd
      · exact Or.inr (Or.inl hd)
    · exact Or.inr (Or.inr hd)
  have hmemchunks : ∀ d, (d ∈ chunks.take idx ∨ d ∈ chunks.drop (idx + 1)) →
      d ∈ chunks := by
    intro d hd
    rcases hd with hd | hd
    · exact List.mem_of_mem_take hd
    · exact List.mem_of_mem_drop hd
  unfold FreeChunk.endAddr at hae
  refine ⟨hsz, ?_, ?_, ?_, ?_, c, hcmem, hca, hae⟩
  · intro x hx1 hx2
    exact ⟨c, hcmem, by omega⟩
  · intro x hx
    obtain ⟨d, hd, hdx⟩ := hx
    rcases hmem' d hd with hd' | hd' | hd'
    · have hdc := hdisj d (Or.inl hd')
      refine ⟨⟨d, hmemchunks d (Or.inl hd'), hdx⟩, ?_⟩
      unfold ChunkDisj at hdc
      omega
    · have := hcov x ⟨d, hd', hdx⟩
      unfold FreeChunk.endAddr at this
      refine ⟨⟨c, hcmem, by omega⟩, by omega⟩
    · have hdc := hdisj d (Or.inr hd')
      refine ⟨⟨d, hmemchunks d (Or.inr hd'), hdx⟩, ?_⟩
      unfold ChunkDisj at hdc
      omega
  · -- pairwise disjointness of the new list
    rw [hchunks']
    have hpd' : (chunks.take idx ++ c :: chunks.drop (idx + 1)).Pairwise ChunkDisj := by
      rw [← hdecomp]; exact hpd
    rw [List.pairwise_append] at hpd'
    obtain ⟨hpd_take, hpd_cdrop, hpd_cross⟩ := hpd'
    rw [List.pairwise_cons] at hpd_cdrop
    obtain ⟨hc_drop, hpd_drop⟩ := hpd_cdrop
    rw [List.pairwise_append, List.pairwise_append]
    refine ⟨⟨hpd_take, hppd, ?_⟩, hpd_drop, ?_⟩
    · -- take vs pieces
      intro u hu v hv
      have hud := hdisj u (Or.inl hu)
      have hv' := hin v hv
      unfold ChunkDisj at hud ⊢
      unfold FreeChunk.endAddr at hv'
      omega
    · -- (take ++ pieces) vs drop
      intro u hu v hv
      rcases List.mem_append.mp hu with hu' | hu'
      · exact hpd_cross u hu' v (List.mem_cons_of_mem _ hv)
      · have hu'' := hin u hu'
        have hcd := hc_drop v hv
        unfold ChunkDisj at hcd ⊢
        unfold FreeChunk.endAddr at hu''
        omega
  · -- every new chunk sits inside an old one
    intro d hd
    rcases hmem' d hd with hd' | hd' | hd'
    · exact ⟨d, hmemchunks d (Or.inl hd'), le_rfl, le_rfl⟩
    · have := hin d hd'
      unfold FreeChunk.endAddr at this
      exact ⟨c, hcmem, this.1, this.2⟩
    · exact ⟨d, hmemchunks d (Or.inr hd'), le_rfl, le_rfl⟩

/-- The walk only fails with `fuel`, `dangling` or `CyclicAnchor`. -/
theorem walkAnchorFuel_error_classified (store : List VNode) :
    ∀ fuel p path s, walkAnchorFuel store fuel p path = .error s →
      s = "fuel" ∨ s = "dangling" ∨ s = "CyclicAnchor" := by
  intro fuel
  induction fuel with
  | zero =>
    intro p path s h
    unfold walkAnchorFuel at h
    injection h with h
    exact Or.inl h.symm
  | succ fuel ih =>
    intro p path s h
    unfold walkAnchorFuel at h
    split at h
    · injection h with h; exact Or.inr (Or.inl h.symm)
    · split at h
      · cases h
      · split at h
        · injection h with h; exact Or.inr (Or.inr h.symm)
        · exact ih _ _ _ h

/-- With fuel at least `store.length + 2 - path.length`, a walk whose path
is duplicate-free, contains the current value and has only valid entries
(except possibly the current value) never runs out of fuel. -/
theorem walkAnchorFuel_no_fuel (store : List VNode) :
    ∀ fuel p path, path.Nodup → (∀ x ∈ path, x ≠ p → x < store.length) →
      p ∈ path → store.length + 2 ≤ fuel + path.length →
      walkAnchorFuel store fuel p path ≠ .error "fuel" := by
  intro fuel
  induction fuel with
  | zero =>
    intro p path hnd hval hp hlen
    exfalso
    have hsub : path.toFinset ⊆ Finset.range store.length ∪ {p} := by
      intro x hx
      rw [List.mem_toFinset] at hx
      by_cases hxp : x = p
      · subst hxp
        exact Finset.mem_union_right _ (Finset.mem_singleton_self x)
      · exact Finset.mem_union_left _ (Finset.mem_range.mpr (hval x hx hxp))
    have hcard : path.length ≤ store.length + 1 := by
      calc path.length = path.toFinset.card := (List.toFinset_card_of_nodup hnd).symm
      _ ≤ (Finset.range store.length ∪ {p}).card := Finset.card_le_card hsub
      _ ≤ (Finset.range store.length).card + ({p} : Finset Nat).card :=
          Finset.card_union_le _ _
      _ = store.length + 1 := by simp
    omega
  | succ fuel ih =>
    intro p path hnd hval hp hlen
    unfold walkAnchorFuel
    split
    · simp
    · rename_i nd hnd'
      split
      · simp
      · rename_i q hq
        split
        · simp
        · rename_i hqpath
          have hplt : p < store.length := (List.get?_eq_some.mp hnd').1
          apply ih q (path ++ [q])
          · rw [List.nodup_append]
            exact ⟨hnd, List.nodup_singleton q, by
              intro x hx hq'
              rw [List.mem_singleton] at hq'
              subst hq'
              exact hqpath hx⟩
          · intro x hx hxq
            rcases List.mem_append.mp hx with hx | hx
            · by_cases hxp : x = p
              · subst hxp; exact hplt
              · exact hval x hx hxp
            · rw [List.mem_singleton] at hx
              exact absurd hx hxq
          · exact List.mem_append_right _ (List.mem_singleton_self q)
          · rw [List.length_append, List.length_singleton]
            omega

/-- A successful walk ends at a value with no `address_base`. -/
theorem walkAnchorFuel_ok_base_none (store : List VNode) :
    ∀ fuel p path t, walkAnchorFuel store fuel p path = .ok t →
      ∃ nd, store.get? t = some nd ∧ nd.addressBase = none := by
  intro fuel
  induction fuel with
  | zero => intro p path t h; cases h
  | succ fuel ih =>
    intro p path t h
    unfold walkAnchorFuel at h
    split at h
    · cases h
    · rename_i nd hnd
      split at h
      · injection h with h
        subst h
        exact ⟨nd, hnd, by assumption⟩
      · split at h
        · cases h
        · exact ih _ _ _ h

/-- A successful walk follows the `address_base` chain to its end. -/
theorem walkAnchorFuel_ok_chain (store : List VNode) :
    ∀ fuel p path t, walkAnchorFuel store fuel p path = .ok t →
      ∃ k, abIter store k p = some t ∧ abStep store t = none := by
  intro fuel
  induction fuel with
  | zero => intro p path t h; cases h
  | succ fuel ih =>
    intro p path t h
    unfold walkAnchorFuel at h
    split at h
    · cases h
    · rename_i nd hnd
      split at h
      · rename_i hbase
        injection h with h
        subst h
        exact ⟨0, rfl, by unfold abStep; rw [hnd]; simpa using hbase⟩
      · rename_i q hbase
        split at h
        · cases h
        · obtain ⟨k, hk, hstep⟩ := ih _ _ _ h
          refine ⟨k + 1, ?_, hstep⟩
          unfold abIter abStep
          rw [hnd]
          simpa [hbase] using hk

/-- Under a well-formed store, a walk started at a valid index never
dangles. -/
theorem walkAnchorFuel_no_dangling (store : List VNode) (hwf : WFStore store) :
    ∀ fuel p path, p < store.length →
      walkAnchorFuel store fuel p path ≠ .error "dangling" := by
  intro fuel
  induction fuel with
  | zero => intro p path hp; unfold walkAnchorFuel; simp
  | succ fuel ih =>
    intro p path hp
    unfold walkAnchorFuel
    split
    · rename_i hnone
      rw [List.get?_eq_none] at hnone
      omega
    · rename_i nd hnd
      split
      · simp
      · rename_i q hq
        split
        · simp
        · apply ih
          have hmem : nd ∈ store := List.get?_mem hnd
          exact (hwf nd hmem).1 q hq

/-- Splitting an `abIter` run. -/
theorem abIter_add (store : List VNode) :
    ∀ j k v, abIter store (j + k) v =
      match abIter store j v with
      | none => none
      | some w => abIter store k w := by
  intro j
  induction j with
  | zero => intro k v; simp [abIter]
  | succ j ih =>
    intro k v
    rw [show j + 1 + k = (j + k) + 1 from by omega]
    show (match abStep store v with
         | none => none
         | some w => abIter store (j + k) w) =
      match (match abStep store v with
             | none => none
             | some w => abIter store j w) with
      | none => none
      | some w => abIter store k w
    cases hs : abStep store v with
    | none => rfl
    | some w =>
      dsimp only
      exact ih k w

/-- On a cycle, the `address_base` chain never terminates. -/
theorem abIter_cyclic_total (store : List VNode) (v : Nat) (m : Nat)
    (hm : 0 < m) (hcyc : abIter store m v = some v) :
    ∀ k, abIter store k v ≠ none := by
  intro k
  induction k using Nat.strong_induction_on with
  | _ k ih =>
    by_cases hk : k ≤ m
    · intro hcon
      have : abIter store (k + (m - k)) v = none := by
        rw [abIter_add, hcon]
      rw [show k + (m - k) = m from by omega] at this
      rw [hcyc] at this
      cases this
    · intro hcon
      rw [show k = m + (k - m) from by omega] at hcon
      rw [abIter_add, hcyc] at hcon
      exact ih (k - m) (by omega) hcon

/-- A value on an `address_base` cycle has no anchor: the walk from it
cannot succeed. -/
theorem walk_cyclic_not_ok (store : List VNode) (v : Nat) (m : Nat)
    (hm : 0 < m) (hcyc : abIter store m v = some v) :
    ∀ fuel path t, walkAnchorFuel store fuel v path ≠ .ok t := by
  intro fuel path t hok
  obtain ⟨k, hk, hstep⟩ := walkAnchorFuel_ok_chain store fuel v path t hok
  have : abIter store (k + 1) v = none := by
    rw [abIter_add, hk]
    unfold abIter
    rw [hstep]
  exact abIter_cyclic_total store v m hm hcyc (k + 1) this

/-- Under a well-formed store, the walk from a valid value on a cycle
reports `CyclicAnchor`. -/
theorem walkAnchor_cyclic (store : List VNode) (hwf : WFStore store)
    (v : Nat) (hv : v < store.length) (m : Nat) (hm : 0 < m)
    (hcyc : abIter store m v = some v) :
    walkAnchor store v = .error "CyclicAnchor" := by
  unfold walkAnchor
  cases hres : walkAnchorFuel store (store.length + 2) v [v] with
  | ok t => exact absurd hres (walk_cyclic_not_ok store v m hm hcyc _ _ t)
  | error s =>
    rcases walkAnchorFuel_error_classified store _ _ _ _ hres with h | h | h
    · subst h
      exact absurd hres (walkAnchorFuel_no_fuel store _ v [v]
        (List.nodup_singleton v) (by simp) (List.mem_singleton_self v) (by simp))
    · subst h
      exact absurd hres (walkAnchorFuel_no_dangling store hwf _ v [v] hv)
    · subst h; rfl

/-- Under a well-formed store, a walk from a valid value never reports
`fuel` or `dangling`: it either succeeds or reports `CyclicAnchor`. -/
theorem walkAnchor_ok_or_cyclic (store : List VNode) (hwf : WFStore store)
    (v : Nat) (hv : v < store.length) :
    (∃ t, walkAnchor store v = .ok t) ∨
    walkAnchor store v = .error "CyclicAnchor" := by
  unfold walkAnchor
  cases hres : walkAnchorFuel store (store.length + 2) v [v] with
  | ok t => exact Or.inl ⟨t, rfl⟩
  | error s =>
    rcases walkAnchorFuel_error_classified store _ _ _ _ hres with h | h | h
    · subst h
      exact absurd hres (walkAnchorFuel_no_fuel store _ v [v]
        (List.nodup_singleton v) (by simp) (List.mem_singleton_self v) (by simp))
    · subst h
      exact absurd hres (walkAnchorFuel_no_dangling store hwf _ v [v] hv)
    · subst h; exact Or.inr rfl

/-- Every member of the reachability closure is a valid store index. -/
theorem reachLoop_valid (store : List VNode) :
    ∀ all wl, (∀ x ∈ all, x < store.length) →
      ∀ x ∈ reachLoop store all wl, x < store.length := by
  intro all wl
  induction all, wl using reachLoop.induct store with
  | case1 all =>
    intro h x hx
    rw [reachLoop] at hx
    exact h x hx
  | case2 all val rest hnd ih =>
    intro h x hx
    rw [reachLoop] at hx
    rw [hnd] at hx
    exact ih h x hx
  | case3 all val rest nd hnd hval ih =>
    intro h x hx
    rw [reachLoop] at hx
    rw [hnd] at hx
    dsimp only at hx
    rw [dif_pos hval] at hx
    exact ih h x hx
  | case4 all val rest nd hnd hval ih =>
    intro h x hx
    rw [reachLoop] at hx
    rw [hnd] at hx
    dsimp only at hx
    rw [dif_neg hval] at hx
    refine ih ?_ x hx
    intro y hy
    rcases List.mem_append.mp hy with hy | hy
    · exact h y hy
    · rw [List.mem_singleton] at hy
      subst hy
      exact (List.get?_eq_some.mp hnd).1

theorem reachClosure_valid (store : List VNode) (roots : List Nat) :
    ∀ x ∈ reachClosure store roots, x < store.length :=
  reachLoop_valid store [] roots (by simp)

/-- If some value in the list has a `CyclicAnchor` walk and every walk is
either successful or `CyclicAnchor`, the classification loop reports
`CyclicAnchor`. -/
theorem classifyAnchors_cyclic (store : List VNode) :
    ∀ vals free fixed,
      (∀ v ∈ vals, (∃ t, walkAnchor store v = .ok t) ∨
        walkAnchor store v = .error "CyclicAnchor") →
      (∃ v ∈ vals, walkAnchor store v = .error "CyclicAnchor") →
      classifyAnchors store vals free fixed = .error "CyclicAnchor" := by
  intro vals
  induction vals with
  | nil => intro free fixed _ hex; obtain ⟨v, hv, _⟩ := hex; cases hv
  | cons w rest ih =>
    intro free fixed hall hex
    unfold classifyAnchors
    rcases hall w (List.mem_cons_self _ _) with ⟨t, ht⟩ | hcyc
    · rw [ht]
      dsimp only
      obtain ⟨nd, hnd, _⟩ := walkAnchorFuel_ok_base_none store _ _ _ _ ht
      rw [hnd]
      dsimp only
      have hex' : ∃ v ∈ rest, walkAnchor store v = .error "CyclicAnchor" := by
        obtain ⟨v, hv, hverr⟩ := hex
        rcases List.mem_cons.mp hv with rfl | hv'
        · rw [ht] at hverr; cases hverr
        · exact ⟨v, hv', hverr⟩
      have hall' : ∀ v ∈ rest, (∃ t, walkAnchor store v = .ok t) ∨
          walkAnchor store v = .error "CyclicAnchor" :=
        fun v hv => hall v (List.mem_cons_of_mem _ hv)
      cases hoff : nd.offset with
      | none =>
        dsimp only
        exact ih _ _ hall' hex'
      | some o =>
        dsimp only
        exact ih _ _ hall' hex'
    · rw [hcyc]

/-- C4: whenever the reachability closure of the root set contains a value
lying on an `address_base` cycle (it reaches itself in `m ≥ 1` steps along
`address_base`), `pack_values` fails with `CyclicAnchor` and never returns
bytes. -/
theorem pack_values_cyclic_anchor (store : List VNode) (hwf : WFStore store)
    (baseAddress maxSize : Int) (roots : List Nat)
    (hcyc : ∃ v ∈ reachClosure store roots, ∃ m, 0 < m ∧
      abIter store m v = some v) :
    pack_values store baseAddress maxSize roots = .error "CyclicAnchor" := by
  obtain ⟨v, hv, m, hm, hloop⟩ := hcyc
  have hvlt : v < store.length := reachClosure_valid store roots v hv
  have hclass : classifyAnchors store (reachClosure store roots) [] [] =
      .error "CyclicAnchor" := by
    apply classifyAnchors_cyclic
    · intro w hw
      exact walkAnchor_ok_or_cyclic store hwf w (reachClosure_valid store roots w hw)
    · exact ⟨v, hv, walkAnchor_cyclic store hwf v hvlt m hm hloop⟩
  unfold pack_values
  dsimp only
  rw [hclass]

/-- The visited set only grows during the reachability loop. -/
theorem reachLoop_mono (store : List VNode) :
    ∀ all wl, ∀ x ∈ all, x ∈ reachLoop store all wl := by
  intro all wl
  induction all, wl using reachLoop.induct store with
  | case1 all =>
    intro x hx
    rw [reachLoop]
    exact hx
  | case2 all val rest hnd ih =>
    intro x hx
    rw [reachLoop]
    rw [hnd]
    exact ih x hx
  | case3 all val rest nd hnd hval ih =>
    intro x hx
    rw [reachLoop]
    rw [hnd]
    dsimp only
    rw [dif_pos hval]
    exact ih x hx
  | case4 all val rest nd hnd hval ih =>
    intro x hx
    rw [reachLoop]
    rw [hnd]
    dsimp only
    rw [dif_neg hval]
    exact ih x (List.mem_append_left _ hx)

/-- Every valid worklist entry ends up in the visited set. -/
theorem reachLoop_wl_mem (store : List VNode) :
    ∀ all wl, ∀ x ∈ wl, x < store.length → x ∈ reachLoop store all wl := by
  intro all wl
  induction all, wl using reachLoop.induct store with
  | case1 all => intro x hx _; cases hx
  | case2 all val rest hnd ih =>
    intro x hx hxlt
    rw [reachLoop, hnd]
    rcases List.mem_cons.mp hx with rfl | hx'
    · rw [List.get?_eq_none] at hnd
      omega
    · exact ih x hx' hxlt
  | case3 all val rest nd hnd hval ih =>
    intro x hx hxlt
    rw [reachLoop, hnd]
    dsimp only
    rw [dif_pos hval]
    rcases List.mem_cons.mp hx with rfl | hx'
    · exact reachLoop_mono store _ _ x hval
    · exact ih x (List.mem_append_right _ hx') hxlt
  | case4 all val rest nd hnd hval ih =>
    intro x hx hxlt
    rw [reachLoop, hnd]
    dsimp only
    rw [dif_neg hval]
    rcases List.mem_cons.mp hx with rfl | hx'
    · exact reachLoop_mono store _ _ x
        (List.mem_append_right _ (List.mem_singleton_self x))
    · exact ih x (List.mem_append_right _ hx') hxlt

/-- Valid roots always belong to the reachability closure. -/
theorem reachClosure_roots_mem (store : List VNode) (roots : List Nat)
    (r : Nat) (hr : r ∈ roots) (hlt : r < store.length) :
    r ∈ reachClosure store roots :=
  reachLoop_wl_mem store [] roots r hr hlt

/-- Witness for C4: two 4-byte integers anchored on each other
(`i.address_base = j, i.offset = -4; j.address_base = i, j.offset = 4`). -/
theorem pack_values_cyclic_anchor_witness :
    pack_values
      [⟨some 1, some (-4), some 4, [], none, []⟩,
       ⟨some 0, some 4, some 4, [], none, []⟩] 0 16 [0] =
      .error "CyclicAnchor" :=
  pack_values_cyclic_anchor
    [⟨some 1, some (-4), some 4, [], none, []⟩,
     ⟨some 0, some 4, some 4, [], none, []⟩]
    (by
      intro nd hnd
      simp only [List.mem_cons, List.not_mem_nil, or_false] at hnd
      rcases hnd with rfl | rfl <;> constructor <;> simp_all <;> omega)
    0 16 [0]
    ⟨0, reachClosure_roots_mem _ [0] 0 (List.mem_singleton_self 0) (by decide),
      2, by decide, by decide⟩

/-! ### Classification and free-allocation frame lemmas -/

theorem classifyAnchors_spec (store : List VNode) :
    ∀ vals free fixed free' fixed',
      classifyAnchors store vals free fixed = .ok (free', fixed') →
      (∀ v ∈ free', v ∈ free ∨
        ∃ nd, store.get? v = some nd ∧ nd.addressBase = none ∧ nd.offset = none) ∧
      (∀ v ∈ fixed', v ∈ fixed ∨
        ∃ nd o, store.get? v = some nd ∧ nd.addressBase = none ∧
          nd.offset = some o) ∧
      (free.Nodup → free'.Nodup) ∧ (fixed.Nodup → fixed'.Nodup) := by
  intro vals
  induction vals with
  | nil =>
    intro free fixed free' fixed' h
    unfold classifyAnchors at h
    injection h with h
    injection h with h1 h2
    subst h1; subst h2
    exact ⟨fun v hv => Or.inl hv, fun v hv => Or.inl hv, id, id⟩
  | cons w rest ih =>
    intro free fixed free' fixed' h
    unfold classifyAnchors at h
    split at h
    · cases h
    · rename_i t ht
      obtain ⟨nd, hnd, hbase⟩ := walkAnchorFuel_ok_base_none store _ _ _ _ ht
      rw [hnd] at h
      dsimp only at h
      cases hoff : nd.offset with
      | none =>
        rw [hoff] at h
        dsimp only at h
        obtain ⟨h1, h2, h3, h4⟩ := ih _ _ _ _ h
        refine ⟨?_, h2, ?_, h4⟩
        · intro v hv
          rcases h1 v hv with hv' | hv'
          · by_cases hmem : t ∈ free
            · rw [if_pos hmem] at hv'
              exact Or.inl hv'
            · rw [if_neg hmem] at hv'
              rcases List.mem_append.mp hv' with hv'' | hv''
              · exact Or.inl hv''
              · rw [List.mem_singleton] at hv''
                subst hv''
                exact Or.inr ⟨nd, hnd, hbase, hoff⟩
          · exact Or.inr hv'
        · intro hfnd
          apply h3
          by_cases hmem : t ∈ free
          · rw [if_pos hmem]; exact hfnd
          · rw [if_neg hmem]
            rw [List.nodup_append]
            exact ⟨hfnd, List.nodup_singleton t, by
              intro x hx hx'
              rw [List.mem_singleton] at hx'
              subst hx'
              exact hmem hx⟩
      | some o =>
        rw [hoff] at h
        dsimp only at h
        obtain ⟨h1, h2, h3, h4⟩ := ih _ _ _ _ h
        refine ⟨h1, ?_, h3, ?_⟩
        · intro v hv
          rcases h2 v hv with hv' | hv'
          · by_cases hmem : t ∈ fixed
            · rw [if_pos hmem] at hv'
              exact Or.inl hv'
            · rw [if_neg hmem] at hv'
              rcases List.mem_append.mp hv' with hv'' | hv''
              · exact Or.inl hv''
              · rw [List.mem_singleton] at hv''
                subst hv''
                exact Or.inr ⟨nd, o, hnd, hbase, hoff⟩
          · exact Or.inr hv'
        · intro hfnd
          apply h4
          by_cases hmem : t ∈ fixed
          · rw [if_pos hmem]; exact hfnd
          · rw [if_neg hmem]
            rw [List.nodup_append]
            exact ⟨hfnd, List.nodup_singleton t, by
              intro x hx hx'
              rw [List.mem_singleton] at hx'
              subst hx'
              exact hmem hx⟩

/-- Frame property of the free-anchor allocation loop: exactly the listed
values receive an offset; everything else is untouched. -/
theorem allocFree_frame :
    ∀ (vs : List Nat) (store : List VNode) (chunks : List FreeChunk)
      (store' : List VNode) (chunks' : List FreeChunk),
      vs.Nodup →
      allocFree store chunks vs = .ok (store', chunks') →
      (∀ i, i ∉ vs → store'.get? i = store.get? i) ∧
      (∀ v ∈ vs, ∃ nd a, store.get? v = some nd ∧
        store'.get? v = some { nd with offset := some a }) := by
  intro vs
  induction vs with
  | nil =>
    intro store chunks store' chunks' _ h
    unfold allocFree at h
    injection h with h
    injection h with h1 h2
    subst h1
    exact ⟨fun i _ => rfl, fun v hv => absurd hv (List.not_mem_nil v)⟩
  | cons v rest ih =>
    intro store chunks store' chunks' hnodup h
    unfold allocFree at h
    split at h
    · cases h
    · rename_i nd hnd
      split at h
      · cases h
      · rename_i sz hsz
        split at h
        · cases h
        · rename_i a chunks1 halloc
          have hvlt : v < store.length := (List.get?_eq_some.mp hnd).1
          have hvrest : v ∉ rest := (List.nodup_cons.mp hnodup).1
          obtain ⟨hframe, hset⟩ := ih _ _ _ _ (List.nodup_cons.mp hnodup).2 h
          constructor
          · intro i hi
            have hiv : i ≠ v := fun hc => hi (hc ▸ List.mem_cons_self v rest)
            have hirest : i ∉ rest := fun hc => hi (List.mem_cons_of_mem _ hc)
            rw [hframe i hirest, List.get?_set_ne _ _ (fun hc => hiv hc.symm)]
          · intro w hw
            rcases List.mem_cons.mp hw with rfl | hw'
            · refine ⟨nd, a, hnd, ?_⟩
              rw [hframe w hvrest, List.get?_set_eq_of_lt _ hvlt]
            · obtain ⟨nd', a', hnd', hset'⟩ := hset w hw'
              have hwv : w ≠ v := fun hc => hvrest (hc ▸ hw')
              rw [List.get?_set_ne _ _ (fun hc => hwv hc.symm)] at hnd'
              exact ⟨nd', a', hnd', hset'⟩

/-- C5: a successful `pack_values` writes a resolved offset into exactly
the free anchors it allocates (reached anchor values whose `offset` was
unset) and leaves every other value in the store — its payload,
`address_base` and `offset` — unchanged. -/
theorem pack_values_frame (store : List VNode) (baseAddress maxSize : Int)
    (roots : List Nat) (store' : List VNode) (bytes : List Nat)
    (freeVals fixedVals : List Nat)
    (hpack : pack_values store baseAddress maxSize roots = .ok (store', bytes))
    (hclass : classifyAnchors store (reachClosure store roots) [] [] =
      .ok (freeVals, fixedVals)) :
    (∀ v ∈ freeVals, ∃ nd a, store.get? v = some nd ∧ nd.offset = none ∧
      nd.addressBase = none ∧
      store'.get? v = some { nd with offset := some a })
  ∧ (∀ i, i ∉ freeVals → store'.get? i = store.get? i) := by
  unfold pack_values at hpack
  dsimp only at hpack
  rw [hclass] at hpack
  dsimp only at hpack
  split at hpack
  · cases hpack
  · rename_i chunks1 hfix
    split at hpack
    · cases hpack
    · rename_i store1 chunks2 hfree
      split at hpack
      · cases hpack
      · rename_i outBytes hemit
        injection hpack with hp
        injection hp with hp1 hp2
        subst hp1
        obtain ⟨hspec1, _, hnd3, _⟩ := classifyAnchors_spec store _ _ _ _ _ hclass
        have hnodup : freeVals.Nodup := hnd3 List.nodup_nil
        obtain ⟨hframe, hset⟩ :=
          allocFree_frame freeVals store chunks1 _ _ hnodup hfree
        constructor
        · intro v hv
          obtain ⟨nd, a, hnd, hset'⟩ := hset v hv
          rcases hspec1 v hv with hc | ⟨nd', hnd', hbase', hoff'⟩
          · cases hc
          · rw [hnd] at hnd'
            injection hnd' with hnd'
            subst hnd'
            exact ⟨nd, a, hnd, hoff', hbase', hset'⟩
        · exact hframe

theorem exStore_pack :
    pack_values exStore 100 8 [0] = .ok (exStoreAfter, [2, 2, 2, 2]) := by
  simp [pack_values, exStore, exStoreAfter, exAnchoredInt, exFreeInt,
    reachClosure, reachLoop, VNode.refs, classifyAnchors, walkAnchor,
    walkAnchorFuel, address, addrOfFuel, allocFixed, allocFree,
    HeapPacker.alloc, scanStep, FreeChunk.split, FreeChunk.endAddr, emitLoop,
    bestFitRef]

theorem exStore_classify :
    classifyAnchors exStore (reachClosure exStore [0]) [] [] =
      .ok ([1], []) := by
  simp [exStore, exAnchoredInt, exFreeInt, reachClosure, reachLoop,
    VNode.refs, classifyAnchors, walkAnchor, walkAnchorFuel]

/-- Witness for C5 at the example store: value 1 (the free anchor) gets an
offset, value 0 is untouched. -/
theorem pack_values_frame_witness :
    (∀ v ∈ [1], ∃ nd a, exStore.get? v = some nd ∧ nd.offset = none ∧
      nd.addressBase = none ∧
      exStoreAfter.get? v = some { nd with offset := some a })
  ∧ (∀ i, i ∉ [1] → exStoreAfter.get? i = exStore.get? i) :=
  pack_values_frame exStore 100 8 [0] exStoreAfter [2, 2, 2, 2] [1] []
    exStore_pack exStore_classify

/-- The forced-address search returns the forced address itself. -/
theorem findForceIdx_addr (f sz : Int) :
    ∀ l n idx a, findForceIdx f sz l n = some (idx, a) → a = f := by
  intro l
  induction l with
  | nil => intro n idx a h; cases h
  | cons c rest ih =>
    intro n idx a h
    unfold findForceIdx at h
    split at h
    · injection h with h
      injection h with _ h2
      exact h2.symm
    · exact ih (n + 1) idx a h

/-- Invariant of the fixed-anchor pass: windows are carved out of the free
list, one per listed value, pairwise disjoint, each inside an original
chunk, and each excluded from the remaining free list. -/
theorem allocFixed_inv (store : List VNode) :
    ∀ (vs : List Nat) (chunks chunks' : List FreeChunk),
      chunks.Pairwise ChunkDisj →
      allocFixed store chunks vs = .ok chunks' →
      chunks'.Pairwise ChunkDisj ∧
      (∀ x, covered chunks' x → covered chunks x) ∧
      (∀ d ∈ chunks', ∃ c0 ∈ chunks, c0.address ≤ d.address ∧
        d.address + d.size ≤ c0.address + c0.size) ∧
      (∀ v ∈ vs, ∃ nd a sz, store.get? v = some nd ∧
        address store v = some a ∧ nd.size = some sz ∧ 0 ≤ sz ∧
        (∃ c0 ∈ chunks, c0.address ≤ a ∧ a + sz ≤ c0.address + c0.size) ∧
        (∀ x, a ≤ x → x < a + sz → ¬ covered chunks' x)) ∧
      List.Pairwise (fun u w => ∀ au su aw sw,
        address store u = some au →
        (store.get? u).bind VNode.size = some su →
        address store w = some aw →
        (store.get? w).bind VNode.size = some sw →
        spanDisjoint au su aw sw) vs := by
  intro vs
  induction vs with
  | nil =>
    intro chunks chunks' hpd h
    unfold allocFixed at h
    injection h with h
    subst h
    exact ⟨hpd, fun x hx => hx, fun d hd => ⟨d, hd, le_rfl, le_rfl⟩,
      fun v hv => absurd hv (List.not_mem_nil v), List.Pairwise.nil⟩
  | cons v rest ih =>
    intro chunks chunks' hpd h
    unfold allocFixed at h
    split at h
    · cases h
    · rename_i nd hnd
      split at h
      · cases h
      · rename_i sz hsz
        split at h
        · cases h
        · rename_i a ha
          split at h
          · cases h
          · rename_i a0 chunks1 halloc
            have ha0 : a0 = a := by
              have : ∃ idx, findForceIdx a sz chunks 0 = some (idx, a0) := by
                unfold HeapPacker.alloc at halloc
                dsimp only at halloc
                split at halloc
                · cases halloc
                · rename_i found idx aa hfound
                  split at halloc
                  · cases halloc
                  · split at halloc
                    · cases halloc
                    · injection halloc with h2
                      injection h2 with h3 _
                      subst h3
                      exact ⟨idx, hfound⟩
              obtain ⟨idx, hidx⟩ := this
              exact findForceIdx_addr a sz chunks 0 idx a0 hidx
            rw [ha0] at halloc
            obtain ⟨hsz0, hwin, hexcl, hpd1, hinside, hc0⟩ :=
              alloc_spec chunks sz (some a) a chunks1 hpd halloc
            obtain ⟨hpd', hcov', hinside', hvs', hpair'⟩ := ih chunks1 chunks' hpd1 h
            have hcov'' : ∀ x, covered chunks' x → covered chunks x :=
              fun x hx => (hexcl x (hcov' x hx)).1
            have hinside'' : ∀ d ∈ chunks', ∃ c0 ∈ chunks,
                c0.address ≤ d.address ∧ d.address + d.size ≤ c0.address + c0.size := by
              intro d hd
              obtain ⟨c1, hc1, h1, h2⟩ := hinside' d hd
              obtain ⟨c0, hc0', h3, h4⟩ := hinside c1 hc1
              exact ⟨c0, hc0', by omega, by omega⟩
            refine ⟨hpd', hcov'', hinside'', ?_, ?_⟩
            · intro w hw
              rcases List.mem_cons.mp hw with rfl | hw'
              · refine ⟨nd, a, sz, hnd, ha, hsz, hsz0, hc0, ?_⟩
                intro x hx1 hx2 hcovx
                exact (hexcl x (hcov' x hcovx)).2 ⟨hx1, hx2⟩
              · obtain ⟨nd', a', sz', hnd', ha', hsz', hsz0', hcc, hex⟩ :=
                  hvs' w hw'
                obtain ⟨c1, hc1, h1, h2⟩ := hcc
                obtain ⟨c0, hc0', h3, h4⟩ := hinside c1 hc1
                exact ⟨nd', a', sz', hnd', ha', hsz', hsz0',
                  ⟨c0, hc0', by omega, by omega⟩, hex⟩
            · rw [List.pairwise_cons]
              refine ⟨?_, hpair'⟩
              intro w hw au su aw sw hau hsu haw hsw
              obtain ⟨nd', a', sz', hnd', ha', hsz', hsz0', hcc, hex⟩ := hvs' w hw
              rw [ha] at hau
              injection hau with hau
              subst hau
              rw [hnd] at hsu
              dsimp only [Option.bind] at hsu
              rw [hsz] at hsu
              injection hsu with hsu
              subst hsu
              rw [ha'] at haw
              injection haw with haw
              subst haw
              rw [hnd'] at hsw
              dsimp only [Option.bind] at hsw
              rw [hsz'] at hsw
              injection hsw with hsw
              subst hsw
              intro x hx1 hx2 hx3
              obtain ⟨c1, hc1, h1, h2⟩ := hcc
              have hcov1 : covered chunks1 x := ⟨c1, hc1, by omega⟩
              exact (hexcl x hcov1).2 ⟨hx1, hx2⟩

/-- Invariant of the free-anchor pass: each listed value receives a window
carved from the free list; windows are pairwise disjoint, inside original
chunks, and excluded from the remaining free list. -/
theorem allocFree_inv :
    ∀ (vs : List Nat) (store : List VNode) (chunks : List FreeChunk)
      (store' : List VNode) (chunks' : List FreeChunk),
      chunks.Pairwise ChunkDisj → vs.Nodup →
      allocFree store chunks vs = .ok (store', chunks') →
      chunks'.Pairwise ChunkDisj ∧
      (∀ x, covered chunks' x → covered chunks x) ∧
      (∀ v ∈ vs, ∃ nd a sz, store.get? v = some nd ∧ nd.size = some sz ∧
        store'.get? v = some { nd with offset := some a } ∧ 0 ≤ sz ∧
        (∃ c0 ∈ chunks, c0.address ≤ a ∧ a + sz ≤ c0.address + c0.size) ∧
        (∀ x, a ≤ x → x < a + sz → ¬ covered chunks' x)) ∧
      List.Pairwise (fun u w => ∀ ndu ndw au aw su sw,
        store'.get? u = some ndu → ndu.offset = some au → ndu.size = some su →
        store'.get? w = some ndw → ndw.offset = some aw → ndw.size = some sw →
        spanDisjoint au su aw sw) vs := by
  intro vs
  induction vs with
  | nil =>
    intro store chunks store' chunks' hpd _ h
    unfold allocFree at h
    injection h with h
    injection h with h1 h2
    subst h1; subst h2
    exact ⟨hpd, fun x hx => hx, fun v hv => absurd hv (List.not_mem_nil v),
      List.Pairwise.nil⟩
  | cons v rest ih =>
    intro store chunks store' chunks' hpd hnodup h
    unfold allocFree at h
    split at h
    · cases h
    · rename_i nd hnd
      split at h
      · cases h
      · rename_i sz hsz
        split at h
        · cases h
        · rename_i a chunks1 halloc
          have hvlt : v < store.length := (List.get?_eq_some.mp hnd).1
          have hvrest : v ∉ rest := (List.nodup_cons.mp hnodup).1
          obtain ⟨hsz0, hwin, hexcl, hpd1, hinside, hc0⟩ :=
            alloc_spec chunks sz none a chunks1 hpd halloc
          obtain ⟨hpd', hcov', hvs', hpair'⟩ :=
            ih _ chunks1 store' chunks' hpd1 (List.nodup_cons.mp hnodup).2 h
          obtain ⟨hframe, _⟩ :=
            allocFree_frame rest _ chunks1 store' chunks'
              (List.nodup_cons.mp hnodup).2 h
          have hstore'v : store'.get? v =
              some { nd with offset := some a } := by
            rw [hframe v hvrest, List.get?_set_eq_of_lt _ hvlt]
          have hcov'' : ∀ x, covered chunks' x → covered chunks x :=
            fun x hx => (hexcl x (hcov' x hx)).1
          refine ⟨hpd', hcov'', ?_, ?_⟩
          · intro w hw
            rcases List.mem_cons.mp hw with rfl | hw'
            · refine ⟨nd, a, sz, hnd, hsz, hstore'v, hsz0, hc0, ?_⟩
              intro x hx1 hx2 hcovx
              exact (hexcl x (hcov' x hcovx)).2 ⟨hx1, hx2⟩
            · obtain ⟨nd', a', sz', hnd', hsz', hset', hsz0', hcc, hex⟩ :=
                hvs' w hw'
              have hwv : w ≠ v := fun hc => hvrest (hc ▸ hw')
              rw [List.get?_set_ne _ _ (fun hc => hwv hc.symm)] at hnd'
              obtain ⟨c1, hc1, h1, h2⟩ := hcc
              obtain ⟨c0, hc0', h3, h4⟩ := hinside c1 hc1
              exact ⟨nd', a', sz', hnd', hsz', hset', hsz0',
                ⟨c0, hc0', by omega, by omega⟩, hex⟩
          · rw [List.pairwise_cons]
            refine ⟨?_, hpair'⟩
            intro w hw ndu ndw au aw su sw hndu hau hsu hndw haw hsw
            rw [hstore'v] at hndu
            injection hndu with hndu
            subst hndu
            dsimp only at hau hsu
            injection hau with hau
            subst hau
            rw [hsz] at hsu
            injection hsu with hsu
            subst hsu
            obtain ⟨nd', a', sz', hnd', hsz', hset', hsz0', hcc, hex⟩ :=
              hvs' w hw
            rw [hset'] at hndw
            injection hndw with hndw
            subst hndw
            dsimp only at haw hsw
            injection haw with haw
            subst haw
            rw [hsz'] at hsw
            injection hsw with hsw
            subst hsw
            intro x hx1 hx2 hx3
            obtain ⟨c1, hc1, h1, h2⟩ := hcc
            have hcov1 : covered chunks1 x := ⟨c1, hc1, by omega⟩
            exact (hexcl x hcov1).2 ⟨hx1, hx2⟩

theorem address_of_base_none (store : List VNode) (v : Nat) (nd : VNode)
    (o : Int) (h : store.get? v = some nd) (hb : nd.addressBase = none)
    (ho : nd.offset = some o) : address store v = some o := by
  unfold address addrOfFuel
  rw [h]
  dsimp only
  rw [ho]
  dsimp only
  rw [hb]

/-- C1 (amended to the allocated anchors): after a successful `pack_values`
over `[base, base + max_size)`, every allocated anchor — every anchor of a
reached value, fixed or free — has a resolved address `a` and size `sz` with
`base ≤ a` and `a + sz ≤ base + max_size`, and the intervals `[a, a+sz)` of
any two allocated anchors are disjoint. -/
theorem pack_values_anchor_layout (store : List VNode)
    (baseAddress maxSize : Int) (roots : List Nat) (store' : List VNode)
    (bytes : List Nat) (freeVals fixedVals : List Nat)
    (hpack : pack_values store baseAddress maxSize roots = .ok (store', bytes))
    (hclass : classifyAnchors store (reachClosure store roots) [] [] =
      .ok (freeVals, fixedVals)) :
    (∀ v ∈ fixedVals ++ freeVals, ∃ nd a sz, store'.get? v = some nd ∧
      nd.addressBase = none ∧ nd.offset = some a ∧ nd.size = some sz ∧
      address store' v = some a ∧
      baseAddress ≤ a ∧ a + sz ≤ baseAddress + maxSize)
  ∧ List.Pairwise (fun u w => ∀ ndu ndw au aw su sw,
      store'.get? u = some ndu → ndu.offset = some au → ndu.size = some su →
      store'.get? w = some ndw → ndw.offset = some aw → ndw.size = some sw →
      spanDisjoint au su aw sw) (fixedVals ++ freeVals) := by
  unfold pack_values at hpack
  dsimp only at hpack
  rw [hclass] at hpack
  dsimp only at hpack
  split at hpack
  · cases hpack
  · rename_i chunks1 hfix
    split at hpack
    · cases hpack
    · rename_i store1 chunks2 hfree
      split at hpack
      · cases hpack
      · rename_i outBytes hemit
        injection hpack with hp
        injection hp with hp1 hp2
        subst hp1
        obtain ⟨hfreeSpec, hfixedSpec, hndFree, hndFixed⟩ :=
          classifyAnchors_spec store _ _ _ _ _ hclass
        have hfreeNodup : freeVals.Nodup := hndFree List.nodup_nil
        have hfixedNodup : fixedVals.Nodup := hndFixed List.nodup_nil
        have hpd0 : ([⟨baseAddress, maxSize⟩] : List FreeChunk).Pairwise ChunkDisj :=
          List.pairwise_singleton _ _
        obtain ⟨hpd1, hcov1, hinside1, hfixVs, hfixPair⟩ :=
          allocFixed_inv store fixedVals _ chunks1 hpd0 hfix
        obtain ⟨hpd2, hcov2, hfreeVs, hfreePair⟩ :=
          allocFree_inv freeVals store chunks1 store1 chunks2 hpd1
            hfreeNodup hfree
        obtain ⟨hframe, _⟩ :=
          allocFree_frame freeVals store chunks1 store1 chunks2
            hfreeNodup hfree
        have hfixed_not_free : ∀ v ∈ fixedVals, v ∉ freeVals := by
          intro v hvf hvfree
          rcases hfixedSpec v hvf with hc | ⟨nd1, o1, hnd1, _, ho1⟩
          · cases hc
          rcases hfreeSpec v hvfree with hc | ⟨nd2, hnd2, _, ho2⟩
          · cases hc
          rw [hnd1] at hnd2
          injection hnd2 with hnd2
          subst hnd2
          rw [ho1] at ho2
          cases ho2
        -- description of each fixed anchor in the final store
        have hfixedFinal : ∀ v ∈ fixedVals, ∃ nd a sz,
            store1.get? v = some nd ∧ nd.addressBase = none ∧
            nd.offset = some a ∧ nd.size = some sz ∧
            address store1 v = some a ∧
            baseAddress ≤ a ∧ a + sz ≤ baseAddress + maxSize ∧
            (∀ x, a ≤ x → x < a + sz → ¬ covered chunks1 x) := by
          intro v hv
          obtain ⟨nd, a, sz, hnd, haddr, hsz, hsz0, hcc, hex⟩ := hfixVs v hv
          rcases hfixedSpec v hv with hc | ⟨nd1, o1, hnd1, hbase1, ho1⟩
          · cases hc
          rw [hnd] at hnd1
          injection hnd1 with hnd1
          subst hnd1
          have haddr' : address store v = some o1 :=
            address_of_base_none store v nd o1 hnd hbase1 ho1
          rw [haddr] at haddr'
          injection haddr' with haddr'
          subst haddr'
          have hget' : store1.get? v = some nd := by
            rw [hframe v (hfixed_not_free v hv), hnd]
          obtain ⟨c0, hc0, hb1, hb2⟩ := hcc
          rw [List.mem_singleton] at hc0
          subst hc0
          dsimp only at hb1 hb2
          refine ⟨nd, a, sz, hget', hbase1, ho1, hsz,
            address_of_base_none store1 v nd a hget' hbase1 ho1,
            hb1, hb2, hex⟩
        -- description of each free anchor in the final store
        have hfreeFinal : ∀ v ∈ freeVals, ∃ nd a sz,
            store1.get? v = some nd ∧ nd.addressBase = none ∧
            nd.offset = some a ∧ nd.size = some sz ∧
            address store1 v = some a ∧
            baseAddress ≤ a ∧ a + sz ≤ baseAddress + maxSize ∧
            (∃ c1 ∈ chunks1, c1.address ≤ a ∧ a + sz ≤ c1.address + c1.size) := by
          intro v hv
          obtain ⟨nd, a, sz, hnd, hsz, hset', hsz0, hcc, hex⟩ := hfreeVs v hv
          rcases hfreeSpec v hv with hc | ⟨nd1, hnd1, hbase1, ho1⟩
          · cases hc
          rw [hnd] at hnd1
          injection hnd1 with hnd1
          subst hnd1
          obtain ⟨c1, hc1, hb1, hb2⟩ := hcc
          obtain ⟨c0, hc0, hb3, hb4⟩ := hinside1 c1 hc1
          rw [List.mem_singleton] at hc0
          subst hc0
          dsimp only at hb3 hb4
          refine ⟨{ nd with offset := some a }, a, sz, hset', hbase1, rfl, hsz,
            address_of_base_none store1 v _ a hset' hbase1 rfl,
            by omega, by omega, c1, hc1, hb1, hb2⟩
        constructor
        · intro v hv
          rcases List.mem_append.mp hv with hv' | hv'
          · obtain ⟨nd, a, sz, h1, h2, h3, h4, h5, h6, h7, _⟩ :=
              hfixedFinal v hv'
            exact ⟨nd, a, sz, h1, h2, h3, h4, h5, h6, h7⟩
          · obtain ⟨nd, a, sz, h1, h2, h3, h4, h5, h6, h7, _⟩ :=
              hfreeFinal v hv'
            exact ⟨nd, a, sz, h1, h2, h3, h4, h5, h6, h7⟩
        · rw [List.pairwise_append]
          refine ⟨?_, hfreePair, ?_⟩
          · -- fixed anchors among themselves
            have := hfixPair
            apply List.Pairwise.imp_of_mem ?_ this
            intro u w hu hw hR ndu ndw au aw su sw hndu hau hsu hndw haw hsw
            obtain ⟨ndu', au', szu', h1, h2, h3, h4, h5, h6, h7, _⟩ :=
              hfixedFinal u hu
            obtain ⟨ndw', aw', szw', g1, g2, g3, g4, g5, g6, g7, _⟩ :=
              hfixedFinal w hw
            rw [hndu] at h1
            injection h1 with h1
            subst h1
            rw [hau] at h3
            injection h3 with h3
            rw [hsu] at h4
            injection h4 with h4
            rw [hndw] at g1
            injection g1 with g1
            subst g1
            rw [haw] at g3
            injection g3 with g3
            rw [hsw] at g4
            injection g4 with g4
            subst h3; subst h4; subst g3; subst g4
            -- translate to the pre-pack store for hfixPair
            have hu_store : store.get? u = some ndu := by
              rw [← hframe u (hfixed_not_free u hu), hndu]
            have hw_store : store.get? w = some ndw := by
              rw [← hframe w (hfixed_not_free w hw), hndw]
            apply hR au su aw sw
            · exact address_of_base_none store u ndu au hu_store h2 hau
            · rw [hu_store]
              dsimp only [Option.bind]
              exact hsu
            · exact address_of_base_none store w ndw aw hw_store g2 haw
            · rw [hw_store]
              dsimp only [Option.bind]
              exact hsw
          · -- a fixed anchor against a free anchor
            intro u hu w hw ndu ndw au aw su sw hndu hau hsu hndw haw hsw
            obtain ⟨ndu', au', szu', h1, h2, h3, h4, h5, h6, h7, hexu⟩ :=
              hfixedFinal u hu
            obtain ⟨ndw', aw', szw', g1, g2, g3, g4, g5, g6, g7, c1, hc1, gb1, gb2⟩ :=
              hfreeFinal w hw
            rw [hndu] at h1
            injection h1 with h1
            subst h1
            rw [hau] at h3
            injection h3 with h3
            rw [hsu] at h4
            injection h4 with h4
            rw [hndw] at g1
            injection g1 with g1
            subst g1
            rw [haw] at g3
            injection g3 with g3
            rw [hsw] at g4
            injection g4 with g4
            subst h3; subst h4; subst g3; subst g4
            intro x hx1 hx2 hx3
            have hcov : covered chunks1 x := ⟨c1, hc1, by omega⟩
            exact hexu x hx1 hx2 hcov

/-- C1 (counterexample to the claim as stated): in `exStore`, value 0 is an
int of size 4 anchored at offset −4 inside the free value 1; packing into
`[100, 108)` succeeds and places value 1 at 100, so the reached value 0
resolves to address 96, which lies below the window base 100. -/
theorem C1_counterexample : ¬ C1Claim := by
  intro h
  obtain ⟨h1, _⟩ :=
    h exStore 100 8 [0] exStoreAfter [2, 2, 2, 2] exStore_pack
  have h0 : (0 : Nat) ∈ reachClosure exStore [0] :=
    reachClosure_roots_mem exStore [0] 0 (List.mem_singleton.mpr rfl)
      (by simp [exStore])
  obtain ⟨a, ha, hb, _⟩ := h1 0 h0 4 rfl
  have ha96 : address exStoreAfter 0 = some 96 := rfl
  rw [ha96] at ha
  injection ha with ha
  omega

/-- Witness for the amended C1 theorem at the example store: the single
allocated anchor (value 1) sits at address 100 with size 4 inside
`[100, 108)`. -/
theorem pack_values_anchor_layout_witness :
    (∀ v ∈ (([] : List Nat) ++ [1]), ∃ nd a sz,
      exStoreAfter.get? v = some nd ∧
      nd.addressBase = none ∧ nd.offset = some a ∧ nd.size = some sz ∧
      address exStoreAfter v = some a ∧
      (100 : Int) ≤ a ∧ a + sz ≤ 100 + 8)
  ∧ List.Pairwise (fun u w => ∀ ndu ndw au aw su sw,
      exStoreAfter.get? u = some ndu → ndu.offset = some au →
      ndu.size = some su →
      exStoreAfter.get? w = some ndw → ndw.offset = some aw →
      ndw.size = some sw →
      spanDisjoint au su aw sw) (([] : List Nat) ++ [1]) :=
  pack_values_anchor_layout exStore 100 8 [0] exStoreAfter [2, 2, 2, 2]
    [1] [] exStore_pack exStore_classify

theorem sorted_get_mono (fields : List SField)
    (hsort : List.Pairwise (fun a b => a.offset ≤ b.offset) fields)
    (i j : Fin fields.length) (hij : (i : Nat) ≤ (j : Nat)) :
    (fields.get i).offset ≤ (fields.get j).offset := by
  rcases Nat.lt_or_ge (i : Nat) (j : Nat) with h | h
  · exact List.pairwise_iff_get.mp hsort i j h
  · have : (i : Nat) = (j : Nat) := by omega
    have : i = j := Fin.ext this
    subst this
    exact le_refl _

theorem insertIdxLoop_spec (fields : List SField) (elem : SField)
    (hsort : List.Pairwise (fun a b => a.offset ≤ b.offset) fields)
    (minI maxI : Nat) :
    minI ≤ maxI → maxI ≤ fields.length →
    (∀ j (hj : j < fields.length), j < minI →
      (fields.get ⟨j, hj⟩).offset ≤ elem.offset) →
    (∀ j (hj : j < fields.length), maxI ≤ j →
      elem.offset ≤ (fields.get ⟨j, hj⟩).offset) →
    minI ≤ insertIdxLoop fields elem minI maxI ∧
    insertIdxLoop fields elem minI maxI ≤ maxI ∧
    (∀ j (hj : j < fields.length),
      j < insertIdxLoop fields elem minI maxI →
      (fields.get ⟨j, hj⟩).offset ≤ elem.offset) ∧
    (∀ j (hj : j < fields.length),
      insertIdxLoop fields elem minI maxI ≤ j →
      elem.offset ≤ (fields.get ⟨j, hj⟩).offset) := by
  induction minI, maxI using insertIdxLoop.induct fields elem with
  | case1 minI maxI hlt mid c hc ih =>
    intro hle hmax hlow hhigh
    have hmidlt : mid < fields.length := by omega
    have hgetd : fields.getD mid ⟨0, none⟩ = fields.get ⟨mid, hmidlt⟩ := by
      rw [List.getD_eq_getElem?_getD, List.getElem?_eq_getElem hmidlt]
      rfl
    have hc' : elem.offset - (fields.getD mid ⟨0, none⟩).offset < 0 := hc
    rw [hgetd] at hc'
    have hstep : insertIdxLoop fields elem minI maxI =
        insertIdxLoop fields elem minI mid := by
      rw [insertIdxLoop]
      simp only [if_pos hlt]
      rw [hgetd]
      rw [if_pos hc']
    rw [hstep]
    have res := ih (by omega) (by omega) hlow (by
      intro j hj hge
      exact le_trans (by omega)
        (sorted_get_mono fields hsort ⟨mid, hmidlt⟩ ⟨j, hj⟩ hge))
    refine ⟨res.1, ?_, res.2.2.1, res.2.2.2⟩
    have := res.2.1
    omega
  | case2 minI maxI hlt mid c hc hc2 ih =>
    intro hle hmax hlow hhigh
    have hmidlt : mid < fields.length := by omega
    have hgetd : fields.getD mid ⟨0, none⟩ = fields.get ⟨mid, hmidlt⟩ := by
      rw [List.getD_eq_getElem?_getD, List.getElem?_eq_getElem hmidlt]
      rfl
    have hc' : ¬ elem.offset - (fields.getD mid ⟨0, none⟩).offset < 0 := hc
    have hc2' : 0 < elem.offset - (fields.getD mid ⟨0, none⟩).offset := hc2
    rw [hgetd] at hc' hc2'
    have hstep : insertIdxLoop fields elem minI maxI =
        insertIdxLoop fields elem (mid + 1) maxI := by
      rw [insertIdxLoop]
      simp only [if_pos hlt]
      rw [hgetd]
      rw [if_neg hc', if_pos hc2']
    rw [hstep]
    have res := ih (by omega) hmax (by
      intro j hj hjlt
      exact le_trans
        (sorted_get_mono fields hsort ⟨j, hj⟩ ⟨mid, hmidlt⟩
          (Nat.le_of_lt_succ hjlt))
        (by omega)) hhigh
    refine ⟨?_, res.2.1, res.2.2.1, res.2.2.2⟩
    have := res.1
    omega
  | case3 minI maxI hlt mid c hc hc2 =>
    intro hle hmax hlow hhigh
    have hmidlt : mid < fields.length := by omega
    have hgetd : fields.getD mid ⟨0, none⟩ = fields.get ⟨mid, hmidlt⟩ := by
      rw [List.getD_eq_getElem?_getD, List.getElem?_eq_getElem hmidlt]
      rfl
    have hc' : ¬ elem.offset - (fields.getD mid ⟨0, none⟩).offset < 0 := hc
    have hc2' : ¬ 0 < elem.offset - (fields.getD mid ⟨0, none⟩).offset := hc2
    rw [hgetd] at hc' hc2'
    have hcval : (fields.get ⟨mid, hmidlt⟩).offset = elem.offset := by omega
    have hstep : insertIdxLoop fields elem minI maxI = mid := by
      rw [insertIdxLoop]
      simp only [if_pos hlt]
      rw [hgetd]
      rw [if_neg hc', if_neg hc2']
    rw [hstep]
    refine ⟨by omega, by omega, ?_, ?_⟩
    · intro j hj hjlt
      exact le_trans
        (sorted_get_mono fields hsort ⟨j, hj⟩ ⟨mid, hmidlt⟩
          (Nat.le_of_lt hjlt))
        (le_of_eq hcval)
    · intro j hj hge
      exact le_trans (le_of_eq hcval.symm)
        (sorted_get_mono fields hsort ⟨mid, hmidlt⟩ ⟨j, hj⟩ hge)
  | case4 minI maxI hlt =>
    intro hle hmax hlow hhigh
    have hstep : insertIdxLoop fields elem minI maxI = minI := by
      rw [insertIdxLoop]
      rw [if_neg hlt]
    rw [hstep]
    exact ⟨le_refl _, hle, hlow, fun j hj hge => hhigh j hj (by omega)⟩

theorem sortedList_insert_pairwise (fields : List SField) (elem : SField)
    (hsort : List.Pairwise (fun a b => a.offset ≤ b.offset) fields) :
    List.Pairwise (fun a b => a.offset ≤ b.offset)
      (SortedList.insert fields elem) := by
  obtain ⟨h1, h2, hlow, hhigh⟩ :=
    insertIdxLoop_spec fields elem hsort 0 fields.length
      (Nat.zero_le _) (le_refl _)
      (fun j hj hjlt => absurd hjlt (by omega))
      (fun j hj hge => absurd hj (by omega))
  unfold SortedList.insert
  rw [List.pairwise_append]
  have hmem_take : ∀ a ∈ fields.take (insertIdxLoop fields elem 0 fields.length),
      ∃ j, ∃ hj : j < fields.length,
        j < insertIdxLoop fields elem 0 fields.length ∧
        fields.get ⟨j, hj⟩ = a := by
    intro a ha
    obtain ⟨k, hk⟩ := List.mem_iff_get.mp ha
    have hklen := lt_of_lt_of_eq k.isLt (List.length_take _ _)
    have hk1 : (k : Nat) < fields.length := by omega
    refine ⟨k, hk1, by omega, ?_⟩
    rw [← hk]
    exact (List.getElem_take fields).symm
  have hmem_drop : ∀ b ∈ fields.drop (insertIdxLoop fields elem 0 fields.length),
      ∃ j, ∃ hj : j < fields.length,
        insertIdxLoop fields elem 0 fields.length ≤ j ∧
        fields.get ⟨j, hj⟩ = b := by
    intro b hb
    obtain ⟨k, hk⟩ := List.mem_iff_get.mp hb
    have hklen := lt_of_lt_of_eq k.isLt (List.length_drop _ _)
    have hk1 : insertIdxLoop fields elem 0 fields.length + (k : Nat) <
        fields.length := by omega
    refine ⟨_, hk1, by omega, ?_⟩
    rw [← hk]
    exact (List.getElem_drop fields).symm
  refine ⟨List.Pairwise.sublist (List.take_sublist _ _) hsort, ?_, ?_⟩
  · rw [List.pairwise_cons]
    refine ⟨?_, List.Pairwise.sublist (List.drop_sublist _ _) hsort⟩
    intro b hb
    obtain ⟨j, hj, hge, hjb⟩ := hmem_drop b hb
    rw [← hjb]
    exact hhigh j hj hge
  · intro a ha b hb
    obtain ⟨j, hj, hjlt, hja⟩ := hmem_take a ha
    have hae : a.offset ≤ elem.offset := by
      rw [← hja]
      exact hlow j hj hjlt
    rcases List.mem_cons.mp hb with rfl | hb'
    · exact hae
    · obtain ⟨k, hk, hge, hkb⟩ := hmem_drop b hb'
      refine le_trans hae ?_
      rw [← hkb]
      exact hhigh k hk hge

theorem structPackLoop_length (fields : List (SField × List Nat)) :
    ∀ (lastEnd : Int) (out : List Nat),
    structPackLoop fields lastEnd = .ok out →
    (fields = [] ∧ out = []) ∨
    (∃ f b s, fields.getLast? = some (f, b) ∧ f.fsize = some s ∧
      (out.length : Int) + lastEnd = f.offset + s) := by
  induction fields with
  | nil =>
    intro lastEnd out h
    left
    refine ⟨rfl, ?_⟩
    injection h with h
    exact h.symm
  | cons fb rest ih =>
    obtain ⟨f, fieldBytes⟩ := fb
    intro lastEnd out h
    right
    simp only [structPackLoop] at h
    by_cases hpad : f.offset - lastEnd < 0
    · rw [if_pos hpad] at h
      cases h
    · rw [if_neg hpad] at h
      cases hfs : f.fsize with
      | none =>
        rw [hfs] at h
        cases h
      | some s =>
        rw [hfs] at h
        dsimp only at h
        by_cases hlen : (fieldBytes.length : Int) = s
        · rw [if_pos hlen] at h
          split at h
          · rename_i out' heq
            injection h with h
            have hout : out.length =
                (f.offset - lastEnd).toNat + (fieldBytes.length + out'.length) := by
              rw [← h]
              simp [List.length_append, List.length_replicate]
            have htn : ((f.offset - lastEnd).toNat : Int) = f.offset - lastEnd :=
              Int.toNat_of_nonneg (by omega)
            rcases ih (f.offset + s) out' heq with ⟨hrest, hout'⟩ |
                ⟨g, gb, gs, hlast, hgs, hlen'⟩
            · subst hrest
              have h0 : out'.length = 0 := by
                rw [hout']
                rfl
              refine ⟨f, fieldBytes, s, rfl, hfs, ?_⟩
              omega
            · refine ⟨g, gb, gs, ?_, hgs, ?_⟩
              · cases rest with
                | nil => cases hlast
                | cons r rest' =>
                  rw [List.getLast?_cons_cons]
                  exact hlast
              · omega
          · rename_i e heq
            cases h
        · rw [if_neg hlen] at h
          cases h

/-- C6: `StructValue.pack` walks the declared fields in offset order (the
field list is a `SortedList` keyed on offsets, and its binary-search `insert`
preserves that order), pads each field with `offset − last_field_end` zero
bytes rejecting negative padding, and on success the packed buffer's length
is `last_field.offset + last_field.size`, i.e. exactly `StructType.size`. -/
theorem structValue_pack_size :
    (∀ fields elem, List.Pairwise (fun a b => a.offset ≤ b.offset) fields →
      List.Pairwise (fun a b => a.offset ≤ b.offset)
        (SortedList.insert fields elem))
  ∧ (∀ (fields : List (SField × List Nat)) (out : List Nat) (n : Int),
      StructValue.pack fields = .ok out →
      StructType.size (fields.map Prod.fst) = some n →
      (out.length : Int) = n) := by
  constructor
  · exact fun fields elem h => sortedList_insert_pairwise fields elem h
  · intro fields out n hpack hsize
    rcases structPackLoop_length fields 0 out hpack with ⟨hf, _⟩ |
        ⟨f, b, s, hlast, hfs, hlen⟩
    · subst hf
      simp [StructType.size] at hsize
    · unfold StructType.size at hsize
      rw [List.getLast?_map, hlast] at hsize
      dsimp only [Option.map] at hsize
      rw [hfs] at hsize
      injection hsize with hsize
      omega

/-- Witness for C6: inserting a field at offset 4 between offsets 0 and 6
keeps the order, and packing a 4-byte field at 0 plus a 2-byte field at 6
yields 8 bytes, the struct's size. -/
theorem structValue_pack_size_witness :
    List.Pairwise (fun a b => a.offset ≤ b.offset)
      (SortedList.insert [⟨0, some 4⟩, ⟨6, some 2⟩] ⟨4, some 1⟩)
  ∧ (([9, 9, 9, 9, 0, 0, 7, 7] : List Nat).length : Int) = 8 :=
  ⟨structValue_pack_size.1 [⟨0, some 4⟩, ⟨6, some 2⟩] ⟨4, some 1⟩ (by decide),
   structValue_pack_size.2
     [(⟨0, some 4⟩, [9, 9, 9, 9]), (⟨6, some 2⟩, [7, 7])]
     [9, 9, 9, 9, 0, 0, 7, 7] 8 rfl rfl⟩

/-- C8 (counterexample to the claim as stated): `IntValue.cast` of an
`IntValue` that already has the target type raises `TypeError` — an
existing moria `Value` is not among the accepted input kinds of the int
(or array, or pointer) cast. -/
theorem C8_counterexample : ¬ C8Claim := by
  intro h
  have hc := h.1 (.intT ⟨some 1, false⟩)
    (.intV ⟨⟨some 1, false⟩, some 5⟩) rfl
  simp [castTo, intCast] at hc

/-- C8 (amended): only `StructValue.cast` is the identity on values of its
own type, and it is idempotent on its accepted domain; the int, array and
pointer casts never accept an existing `Value` — not even one already of
the target type — and raise instead. -/
theorem values_cast_self :
    (∀ n, castTo (.structT n) (.pyVal (.structV n)) = .ok (.structV n))
  ∧ (∀ n x y, castTo (.structT n) x = .ok y →
      castTo (.structT n) (.pyVal y) = .ok y)
  ∧ (∀ t v, ∃ e, castTo (.intT t) (.pyVal v) = .error e)
  ∧ (∀ m c v, ∃ e, castTo (.arrT m c) (.pyVal v) = .error e)
  ∧ (∀ r v, ∃ e, castTo (.ptrT r) (.pyVal v) = .error e) := by
  refine ⟨?_, ?_, ?_, ?_, ?_⟩
  · intro n
    simp [castTo, structCast]
  · intro n x y h
    rcases x with n' | s | b | xs | q | v
    · simp [castTo, structCast] at h
    · simp [castTo, structCast] at h
    · simp [castTo, structCast] at h
    · simp [castTo, structCast] at h
    · simp [castTo, structCast] at h
    · rcases v with iv | ⟨m, c, vs⟩ | ⟨r, rv, raw⟩ | n'
      · simp [castTo, structCast] at h
      · simp [castTo, structCast] at h
      · simp [castTo, structCast] at h
      · simp only [castTo, structCast] at h
        by_cases hn : n' = n
        · rw [if_pos hn] at h
          injection h with h
          subst hn
          rw [← h]
          simp [castTo, structCast]
        · rw [if_neg hn] at h
          cases h
  · intro t v
    cases ht : t.size with
    | none =>
      exact ⟨"ValueError: Cannot cast to integer type without a size",
        by simp [castTo, intCast, ht]⟩
    | some s =>
      exact ⟨"TypeError: cannot be assigned", by simp [castTo, intCast, ht]⟩
  · intro m c v
    exact ⟨"TypeError: cannot be assigned", by simp [castTo, iterElems]⟩
  · intro r v
    exact ⟨"TypeError: cannot be assigned", by simp [castTo, seqElems]⟩

/-- Witness for the amended C8 theorem: casting a struct value to its own
struct type returns it unchanged. -/
theorem values_cast_self_witness :
    castTo (.structT 0) (.pyVal (.structV 0)) = .ok (.structV 0) :=
  values_cast_self.2.1 0 (.pyVal (.structV 0)) (.structV 0)
    (by simp [castTo, structCast])

/-- C9: contrary to the specification, `PointerValue.cast` of a length-0
iterable does NOT raise `TypeMismatch` — the empty bytes object is a
`Sequence`, so the code builds a zero-element array and returns a pointer
referencing that empty buffer. -/
theorem pointerValue_cast_empty :
    castTo (.ptrT (.intT ⟨some 1, false⟩)) (.pyBytes []) =
      .ok (.ptrV (.intT ⟨some 1, false⟩)
        (some (.arrV (.intT ⟨some 1, false⟩) 0 [])) none) := by
  simp [castTo, seqElems, castList]

end Moria
